import Mathlib

/-!
Verification of the concurrent job-dispatch engine of a client-side batch
image converter (source: src/app/page.js).

The embedding models the dispatcher state kept by the page component:
`imageList` (the WorkUnit registry, React state), the module-level
`fileCache` map, the `conversionQueueRef` FIFO, the `busyWorkersRef` set,
the `isConverting` flag and the fixed worker pool of size `numWorkers`.
Worker jobs run out of band; we record each posted, not-yet-answered job
as a pair `(workerIndex, imageId)` in `inFlight`, and worker completion
is a nondeterministic event step that consumes such a pair.  Note that
`resetState` (page.js:276-287) does NOT terminate the workers, so it
leaves `inFlight` untouched while clearing `busyWorkers`.

The JS id scheme `name-lastModified-random` is collision resistant; we
model it by a fresh natural-number counter `nextId`.

`enqueuedEver` and `terminalEver` are history variables (ghost
instrumentation used only to state temporal claims; no operation reads
them, they never influence the concrete fields).
-/

inductive Status where
  | pending
  | converting
  | done
  | error
deriving DecidableEq, Repr

/-- One entry of `imageList` (page.js:203). -/
structure WorkUnit where
  id : Nat
  originalName : String
  originalSize : Nat
  convertedUrl : Option Nat
  convertedSize : Nat
  status : Status
  errorMessage : Option String
deriving DecidableEq, Repr

/-- An input file as supplied by the file-selection collaborator. -/
structure InputFile where
  name : String
  lastModified : Nat
  size : Nat
  mimeType : String
deriving DecidableEq, Repr

/-- A worker completion message (page.js:45, 50, 52). -/
inductive Outcome where
  | done (blobRef : Nat) (blobSize : Nat)
  | error (msg : String)
deriving DecidableEq, Repr

structure AppState where
  imageList : List WorkUnit
  fileCache : List (Nat × InputFile)
  conversionQueue : List Nat
  busyWorkers : List Nat
  isConverting : Bool
  errorMsg : String
  numWorkers : Nat
  quality : Nat
  nextId : Nat
  inFlight : List (Nat × Nat)
  enqueuedEver : List Nat
  terminalEver : List Nat
deriving DecidableEq, Repr

def idsOf (l : List WorkUnit) : List Nat := l.map WorkUnit.id

def flightIds (s : AppState) : List Nat := s.inFlight.map Prod.snd

def flightSlots (s : AppState) : List Nat := s.inFlight.map Prod.fst

/-- JS `Set.add` on `busyWorkersRef` (page.js:219). -/
def setInsert (i : Nat) (l : List Nat) : List Nat := if i ∈ l then l else i :: l

/-- JS `Map.get` on `fileCache` (page.js:216). -/
def cacheGet (x : Nat) : List (Nat × InputFile) → Option InputFile
  | [] => none
  | (k, f) :: t => if k = x then some f else cacheGet x t

/-- Look a WorkUnit up by id (helper for stating claims). -/
def findUnit (x : Nat) : List WorkUnit → Option WorkUnit
  | [] => none
  | u :: t => if u.id = x then some u else findUnit x t

/-- The mime filter of `handleImageUpload` (page.js:192). -/
def isValidFile (f : InputFile) : Bool :=
  f.mimeType == "image/png" || f.mimeType == "image/jpeg"

/-- The `status === 'pending' || status === 'error'` filter of
`convertAllImages` (page.js:245). -/
def processable (u : WorkUnit) : Bool :=
  u.status == Status.pending || u.status == Status.error

/-- The metadata record built per valid file (page.js:203). -/
def mkUnit (uid : Nat) (f : InputFile) : WorkUnit :=
  { id := uid, originalName := f.name, originalSize := f.size,
    convertedUrl := none, convertedSize := 0,
    status := Status.pending, errorMessage := none }

/-- Registration of the valid files: fresh id per file, cache insertion,
in submission order (page.js:200-204). -/
def registerAux (n : Nat) : List InputFile → List WorkUnit × List (Nat × InputFile)
  | [] => ([], [])
  | f :: fs =>
    let r := registerAux (n + 1) fs
    (mkUnit n f :: r.1, (n, f) :: r.2)

/-- `handleImageUpload` (page.js:190-208): filter to png/jpeg, report a
single batch-level message only when no file at all is valid, otherwise
clear the message and register the valid files. -/
def handleImageUpload (files : List InputFile) (s : AppState) : AppState :=
  let validFiles := files.filter isValidFile
  if validFiles.isEmpty then
    if files.isEmpty then s
    else { s with errorMsg := "Please select valid PNG or JPG images." }
  else
    let r := registerAux s.nextId validFiles
    { s with errorMsg := "",
             imageList := s.imageList ++ r.1,
             fileCache := s.fileCache ++ r.2,
             nextId := s.nextId + validFiles.length }

/-- Status update performed when a job is posted (page.js:220). -/
def markConverting (x : Nat) (l : List WorkUnit) : List WorkUnit :=
  l.map (fun u => if u.id = x then { u with status := Status.converting } else u)

/-- Status update of the evicted-payload branch (page.js:223). -/
def markFileNotFound (x : Nat) (l : List WorkUnit) : List WorkUnit :=
  l.map (fun u =>
    if u.id = x then
      { u with status := Status.error, errorMessage := some "File not found" }
    else u)

/-- The registry update performed on a worker message (page.js:230-233). -/
def applyEvent (x : Nat) (o : Outcome) (l : List WorkUnit) : List WorkUnit :=
  l.map (fun u =>
    if u.id = x then
      match o with
      | Outcome.done b sz =>
        { u with status := Status.done, convertedUrl := some b,
                 convertedSize := sz, errorMessage := none }
      | Outcome.error m =>
        { u with status := Status.error, convertedUrl := none,
                 convertedSize := 0, errorMessage := some m }
    else u)

/-- The body of `dispatchJob` (page.js:212-226), with the queue threaded
explicitly (`q` is always the current value of `s.conversionQueue`): pop
the front id; if its payload is cached, mark the slot busy, set the unit
Converting and post the job; otherwise force the unit to
Error("File not found") and retry the same slot on the rest. -/
def dispatchGo (i : Nat) : List Nat → AppState → AppState
  | [], s => s
  | x :: rest, s =>
    match cacheGet x s.fileCache with
    | some _ =>
      { s with conversionQueue := rest,
               busyWorkers := setInsert i s.busyWorkers,
               imageList := markConverting x s.imageList,
               inFlight := (i, x) :: s.inFlight }
    | none =>
      dispatchGo i rest
        { s with conversionQueue := rest,
                 imageList := markFileNotFound x s.imageList,
                 terminalEver := x :: s.terminalEver }

def dispatchJob (i : Nat) (s : AppState) : AppState :=
  dispatchGo i s.conversionQueue s

/-- `handleWorkerMessage` (page.js:228-242): update the registry from the
event (a no-op when the id is gone), free the slot, then refill it if
work is pending, else clear `isConverting` once no slot is busy. -/
def handleWorkerMessage (i : Nat) (x : Nat) (o : Outcome) (s : AppState) : AppState :=
  let s1 : AppState :=
    { s with imageList := applyEvent x o s.imageList,
             busyWorkers := s.busyWorkers.filter (fun j => j != i),
             inFlight := s.inFlight.filter (fun p => p != (i, x)),
             terminalEver := x :: s.terminalEver }
  if s1.conversionQueue.isEmpty then
    if s1.busyWorkers.isEmpty then { s1 with isConverting := false } else s1
  else dispatchJob i s1

/-- The `workersRef.current.forEach` loop of `convertAllImages`
(page.js:255-259). -/
def fillIdleSlots (s : AppState) : AppState :=
  (List.range s.numWorkers).foldl
    (fun st i => if i ∈ st.busyWorkers then st else dispatchJob i st) s

/-- `convertAllImages` (page.js:244-260): gather Pending/Error units,
append their ids to the queue in registry order, raise `isConverting`,
then fill every idle slot. -/
def convertAllImages (s : AppState) : AppState :=
  let toProcess := s.imageList.filter processable
  if toProcess.isEmpty then { s with errorMsg := "No new images to convert." }
  else
    fillIdleSlots
      { s with conversionQueue := s.conversionQueue ++ idsOf toProcess,
               isConverting := true,
               errorMsg := "",
               enqueuedEver := s.enqueuedEver ++ idsOf toProcess }

/-- `handleRetry` (page.js:262-264): unconditionally force the matching
unit to Pending and clear its message; nothing else is touched. -/
def handleRetry (x : Nat) (s : AppState) : AppState :=
  { s with imageList := s.imageList.map (fun u =>
      if u.id = x then { u with status := Status.pending, errorMessage := none }
      else u) }

/-- `removeImage` (page.js:266-274): drop the unit, its cache entry and
every queued occurrence of its id. -/
def removeImage (x : Nat) (s : AppState) : AppState :=
  { s with imageList := s.imageList.filter (fun u => u.id != x),
           fileCache := s.fileCache.filter (fun p => p.1 != x),
           conversionQueue := s.conversionQueue.filter (fun y => y != x),
           enqueuedEver := s.enqueuedEver.filter (fun y => y != x) }

/-- `resetState` (page.js:276-287): clear the registry, the cache, the
queue and the busy set.  The workers are NOT terminated, so jobs already
posted stay in flight (`inFlight` is untouched). -/
def resetState (s : AppState) : AppState :=
  { s with imageList := [],
           fileCache := [],
           conversionQueue := [],
           busyWorkers := [],
           errorMsg := "",
           isConverting := false,
           enqueuedEver := [] }

/-- The quality slider (page.js:346). -/
def setQualityTo (q : Nat) (s : AppState) : AppState := { s with quality := q }

/-- Component mount state (page.js:152-161, 172): empty registry, cache
and queue, no busy slot, a pool of `P` workers. -/
def initState (P : Nat) : AppState :=
  { imageList := [], fileCache := [], conversionQueue := [],
    busyWorkers := [], isConverting := false, errorMsg := "",
    numWorkers := P, quality := 80, nextId := 0, inFlight := [],
    enqueuedEver := [], terminalEver := [] }

/-- Result of one opaque encode attempt inside a worker. -/
inductive EncodeResult where
  | ok (blobRef : Nat) (blobSize : Nat)
  | fail (msg : String)
deriving DecidableEq, Repr

inductive WorkerReply where
  | done (blobRef : Nat) (blobSize : Nat)
  | error (msg : String)
deriving DecidableEq, Repr

/-- The worker message handler (page.js:37-55): try the fast
`createImageBitmap` path; on failure fall back to the
FileReader/Image path; report `done` if either attempt succeeds and
`error` with the fallback's message only when both fail.  The two encode
attempts are opaque external operations, modelled by their results. -/
def workerOnMessage (primary fallbackRes : EncodeResult) : WorkerReply :=
  match primary with
  | EncodeResult.ok b sz => WorkerReply.done b sz
  | EncodeResult.fail _ =>
    match fallbackRes with
    | EncodeResult.ok b sz => WorkerReply.done b sz
    | EncodeResult.fail m => WorkerReply.error m

/-- One public operation of the page, with the guards the UI enforces:
the convert button is disabled while `isConverting` or when nothing is
processable (page.js:349), the retry button is rendered only on an
Error row (page.js:136), the reset button is disabled on an empty list
(page.js:357).  A worker event may arrive for any posted,
not-yet-answered job.  `rg` is an extra guard on reset used to study
runs that only reset while no job is in flight. -/
inductive Step (rg : AppState → Prop) : AppState → AppState → Prop
  | upload (s : AppState) (files : List InputFile) :
      Step rg s (handleImageUpload files s)
  | convert (s : AppState) :
      s.isConverting = false →
      s.imageList.filter processable ≠ [] →
      Step rg s (convertAllImages s)
  | retry (s : AppState) (x : Nat) :
      (∃ u, u ∈ s.imageList ∧ u.id = x ∧ u.status = Status.error) →
      Step rg s (handleRetry x s)
  | remove (s : AppState) (x : Nat) :
      Step rg s (removeImage x s)
  | reset (s : AppState) :
      s.imageList ≠ [] → rg s → Step rg s (resetState s)
  | event (s : AppState) (i x : Nat) (o : Outcome) :
      (i, x) ∈ s.inFlight → Step rg s (handleWorkerMessage i x o s)
  | setQual (s : AppState) (q : Nat) :
      q ≤ 100 → Step rg s (setQualityTo q s)

inductive ReachG (rg : AppState → Prop) : AppState → Prop
  | init (P : Nat) : 1 ≤ P → ReachG rg (initState P)
  | step {s t : AppState} : ReachG rg s → Step rg s t → ReachG rg t

/-- Reachability under the UI guards, with reset available at any time
(this is exactly what the source allows). -/
def Reach : AppState → Prop := ReachG (fun _ => True)

def Quiescent (s : AppState) : Prop := s.inFlight = []

/-- Reachability in runs whose resets only happen while no job is in
flight. -/
def ReachQ : AppState → Prop := ReachG Quiescent

structure InvA (s : AppState) : Prop where
  nodupIds : (idsOf s.imageList).Nodup
  idLt : ∀ u ∈ s.imageList, u.id < s.nextId
  cacheLt : ∀ p ∈ s.fileCache, p.1 < s.nextId
  queueInList : ∀ x ∈ s.conversionQueue, x ∈ idsOf s.imageList
  unitCached : ∀ x ∈ idsOf s.imageList, (cacheGet x s.fileCache).isSome = true
  queueNodup : s.conversionQueue.Nodup
  flightIdsNodup : (flightIds s).Nodup
  queueFlightDisj : ∀ x ∈ s.conversionQueue, x ∉ flightIds s
  flightLt : ∀ p ∈ s.inFlight, p.2 < s.nextId
  queueStatus : ∀ x ∈ s.conversionQueue, ∀ u ∈ s.imageList, u.id = x →
      u.status = Status.pending ∨ u.status = Status.error
  flightStatus : ∀ p ∈ s.inFlight, ∀ u ∈ s.imageList, u.id = p.2 →
      u.status = Status.converting
  convFlight : ∀ u ∈ s.imageList, u.status = Status.converting → u.id ∈ flightIds s
  doneIff : ∀ u ∈ s.imageList, (u.status = Status.done ↔ u.convertedUrl ≠ none)
  slotLt : ∀ p ∈ s.inFlight, p.1 < s.numWorkers
  oneW : 1 ≤ s.numWorkers
  enqInv : ∀ x ∈ s.enqueuedEver,
      x ∈ s.conversionQueue ∨ x ∈ flightIds s ∨ x ∈ s.terminalEver

def InvB (s : AppState) : Prop :=
  (s.isConverting = false → s.conversionQueue = [] ∧ s.busyWorkers = []) ∧
  (s.isConverting = true → s.busyWorkers ≠ [])

def SysInv (s : AppState) : Prop := InvA s ∧ InvB s

def QInv (s : AppState) : Prop :=
  (flightSlots s).Nodup ∧ (∀ j, j ∈ s.busyWorkers ↔ j ∈ flightSlots s)

/-! ### Concrete states used as counterexamples and witnesses -/

def pngFile (nm : String) : InputFile :=
  { name := nm, lastModified := 0, size := 100, mimeType := "image/png" }

def gifFile (nm : String) : InputFile :=
  { name := nm, lastModified := 0, size := 100, mimeType := "image/gif" }

def trA1 : AppState := handleImageUpload [pngFile "a"] (initState 1)

def trA2 : AppState := convertAllImages trA1

def trA3 : AppState := resetState trA2

def trA4 : AppState := handleImageUpload [pngFile "b", pngFile "c"] trA3

def trA5 : AppState := convertAllImages trA4

def trA6 : AppState := handleWorkerMessage 0 0 (Outcome.done 7 50) trA5

def trB1 : AppState := handleImageUpload [pngFile "a", pngFile "b"] (initState 1)

def trB2 : AppState := convertAllImages trB1

def trB3 : AppState := handleWorkerMessage 0 0 (Outcome.error "boom") trB2

def trB4 : AppState := handleRetry 0 trB3

def trB5 : AppState := handleWorkerMessage 0 1 (Outcome.done 9 40) trB4

def trD3 : AppState := handleWorkerMessage 0 0 (Outcome.done 7 44) trA2

def u0err : WorkUnit :=
  { id := 0, originalName := "a", originalSize := 100, convertedUrl := none,
    convertedSize := 0, status := Status.error, errorMessage := some "boom" }

def u7 : WorkUnit :=
  { id := 0, originalName := "a", originalSize := 5, convertedUrl := none,
    convertedSize := 0, status := Status.pending, errorMessage := none }

def s7 : AppState :=
  { imageList := [u7],
    fileCache := [], conversionQueue := [0], busyWorkers := [],
    isConverting := true, errorMsg := "", numWorkers := 1, quality := 80,
    nextId := 1, inFlight := [], enqueuedEver := [0], terminalEver := [] }

def u0p : WorkUnit :=
  { id := 0, originalName := "x", originalSize := 100, convertedUrl := none,
    convertedSize := 0, status := Status.pending, errorMessage := none }

def s10 : AppState :=
  { imageList := [u0p],
    fileCache := [(0, pngFile "x")], conversionQueue := [0], busyWorkers := [],
    isConverting := false, errorMsg := "", numWorkers := 2, quality := 80,
    nextId := 1, inFlight := [], enqueuedEver := [0], terminalEver := [] }

theorem reachQ_reach {s : AppState} (h : ReachQ s) : Reach s := by
  induction h with
  | init P hP => exact ReachG.init P hP
  | step _ hst ih =>
    refine ReachG.step ih ?_
    cases hst with
    | upload files => exact Step.upload _ files
    | convert h1 h2 => exact Step.convert _ h1 h2
    | retry x h1 => exact Step.retry _ x h1
    | remove x => exact Step.remove _ x
    | reset h1 _ => exact Step.reset _ h1 trivial
    | event i x o h1 => exact Step.event _ i x o h1
    | setQual q h1 => exact Step.setQual _ q h1

/-! ### Basic lemmas about the helper operations -/

theorem idsOf_map_pres {f : WorkUnit → WorkUnit} (hf : ∀ u, (f u).id = u.id)
    (l : List WorkUnit) : idsOf (l.map f) = idsOf l := by
  simp only [idsOf, List.map_map]
  exact List.map_congr_left (fun u _ => hf u)

theorem idsOf_markConverting (x : Nat) (l : List WorkUnit) :
    idsOf (markConverting x l) = idsOf l := by
  apply idsOf_map_pres
  intro u; by_cases h : u.id = x <;> simp [h]

theorem idsOf_markFileNotFound (x : Nat) (l : List WorkUnit) :
    idsOf (markFileNotFound x l) = idsOf l := by
  apply idsOf_map_pres
  intro u; by_cases h : u.id = x <;> simp [h]

theorem idsOf_applyEvent (x : Nat) (o : Outcome) (l : List WorkUnit) :
    idsOf (applyEvent x o l) = idsOf l := by
  apply idsOf_map_pres
  intro u; by_cases h : u.id = x <;> cases o <;> simp [h]

theorem idsOf_append (l l' : List WorkUnit) :
    idsOf (l ++ l') = idsOf l ++ idsOf l' := List.map_append _ _ _

theorem mem_setInsert {j i : Nat} {l : List Nat} :
    j ∈ setInsert i l ↔ j = i ∨ j ∈ l := by
  unfold setInsert
  by_cases h : i ∈ l
  · simp only [if_pos h]
    constructor
    · intro hj; exact Or.inr hj
    · rintro (rfl | hj) <;> [exact h; exact hj]
  · simp [if_neg h]

theorem self_mem_setInsert (i : Nat) (l : List Nat) : i ∈ setInsert i l :=
  mem_setInsert.mpr (Or.inl rfl)

theorem setInsert_ne_nil (i : Nat) (l : List Nat) : setInsert i l ≠ [] := by
  intro h
  have hm := self_mem_setInsert i l
  rw [h] at hm
  cases hm

theorem cacheGet_append_some {x : Nat} {c d : List (Nat × InputFile)} {f : InputFile}
    (h : cacheGet x c = some f) : cacheGet x (c ++ d) = some f := by
  induction c with
  | nil => simp [cacheGet] at h
  | cons p t ih =>
    obtain ⟨k, g⟩ := p
    by_cases hk : k = x
    · simpa [cacheGet, hk] using (by simpa [cacheGet, hk] using h)
    · simp only [cacheGet, List.cons_append, if_neg hk] at h ⊢
      exact ih h

theorem cacheGet_append_none {x : Nat} {c d : List (Nat × InputFile)}
    (h : cacheGet x c = none) : cacheGet x (c ++ d) = cacheGet x d := by
  induction c with
  | nil => simp
  | cons p t ih =>
    obtain ⟨k, g⟩ := p
    by_cases hk : k = x
    · simp [cacheGet, hk] at h
    · simp only [cacheGet, List.cons_append, if_neg hk] at h ⊢
      exact ih h

theorem cacheGet_eq_none_of_lt {x : Nat} {c : List (Nat × InputFile)}
    (h : ∀ p ∈ c, p.1 < x) : cacheGet x c = none := by
  induction c with
  | nil => rfl
  | cons p t ih =>
    obtain ⟨k, g⟩ := p
    have hk : k ≠ x := Nat.ne_of_lt (h (k, g) (List.mem_cons_self _ _))
    simp only [cacheGet, if_neg hk]
    exact ih (fun q hq => h q (List.mem_cons_of_mem _ hq))

theorem cacheGet_filter_ne {y x : Nat} (c : List (Nat × InputFile)) (h : y ≠ x) :
    cacheGet y (c.filter (fun p => p.1 != x)) = cacheGet y c := by
  induction c with
  | nil => rfl
  | cons p t ih =>
    obtain ⟨k, g⟩ := p
    by_cases hk : k = x
    · subst hk
      have hky : k ≠ y := fun hh => h hh.symm
      simp only [List.filter_cons, bne_self_eq_false, cond_false, cacheGet,
        if_neg hky]
      exact ih
    · by_cases hky : k = y
      · subst hky
        simp [List.filter_cons, bne_iff_ne, hk, cacheGet]
      · simp only [List.filter_cons, cacheGet, if_neg hky]
        have : (k != x) = true := bne_iff_ne.mpr hk
        simp only [this, cond_true, cacheGet, if_neg hky]
        exact ih

/-! Registration lemmas -/

theorem regAux_fst_ids (n : Nat) (fs : List InputFile) :
    idsOf (registerAux n fs).1 = List.range' n fs.length := by
  induction fs generalizing n with
  | nil => rfl
  | cons f t ih =>
    simp only [registerAux, idsOf, List.map_cons, List.length_cons, List.range'_succ]
    exact congrArg (n :: ·) (ih (n + 1))

theorem regAux_fst_mem {n : Nat} {fs : List InputFile} {u : WorkUnit}
    (h : u ∈ (registerAux n fs).1) :
    u.status = Status.pending ∧ u.convertedUrl = none ∧
    n ≤ u.id ∧ u.id < n + fs.length := by
  induction fs generalizing n with
  | nil => simp [registerAux] at h
  | cons f t ih =>
    simp only [registerAux, List.mem_cons] at h
    rcases h with rfl | h
    · refine ⟨rfl, rfl, Nat.le_refl _, ?_⟩
      simp only [mkUnit, List.length_cons]
      omega
    · obtain ⟨h1, h2, h3, h4⟩ := ih h
      refine ⟨h1, h2, Nat.le_of_succ_le h3, ?_⟩
      simp only [List.length_cons]
      omega

theorem regAux_snd_mem {n : Nat} {fs : List InputFile} {p : Nat × InputFile}
    (h : p ∈ (registerAux n fs).2) : n ≤ p.1 ∧ p.1 < n + fs.length := by
  induction fs generalizing n with
  | nil => simp [registerAux] at h
  | cons f t ih =>
    simp only [registerAux, List.mem_cons] at h
    rcases h with rfl | h
    · refine ⟨Nat.le_refl _, ?_⟩
      simp only [List.length_cons]
      omega
    · obtain ⟨h1, h2⟩ := ih h
      refine ⟨Nat.le_of_succ_le h1, ?_⟩
      simp only [List.length_cons]
      omega

theorem regAux_cacheGet {n m : Nat} {fs : List InputFile}
    (h1 : n ≤ m) (h2 : m < n + fs.length) :
    (cacheGet m (registerAux n fs).2).isSome = true := by
  induction fs generalizing n with
  | nil =>
    simp only [List.length_nil, Nat.add_zero] at h2
    omega
  | cons f t ih =>
    by_cases hm : n = m
    · simp [registerAux, cacheGet, hm]
    · have hle : n + 1 ≤ m := by omega
      simp only [registerAux, cacheGet, if_neg hm]
      refine ih hle ?_
      simp only [List.length_cons] at h2
      omega

theorem regAux_names (n : Nat) (fs : List InputFile) :
    (registerAux n fs).1.map WorkUnit.originalName = fs.map InputFile.name := by
  induction fs generalizing n with
  | nil => rfl
  | cons f t ih =>
    simp only [registerAux, List.map_cons]
    exact congrArg (f.name :: ·) (ih (n + 1))

theorem regAux_length (n : Nat) (fs : List InputFile) :
    (registerAux n fs).1.length = fs.length := by
  have := congrArg List.length (regAux_fst_ids n fs)
  simpa [idsOf] using this

/-! Generic list helpers -/

theorem eq_of_mem_of_id_eq {l : List WorkUnit} (h : (idsOf l).Nodup)
    {u v : WorkUnit} (hu : u ∈ l) (hv : v ∈ l) (he : u.id = v.id) : u = v := by
  induction l with
  | nil => cases hu
  | cons w t ih =>
    simp only [idsOf, List.map_cons, List.nodup_cons] at h
    rcases List.mem_cons.mp hu with rfl | hu' <;>
      rcases List.mem_cons.mp hv with rfl | hv'
    · rfl
    · exact absurd (he ▸ List.mem_map_of_mem WorkUnit.id hv') h.1
    · exact absurd (he ▸ List.mem_map_of_mem WorkUnit.id hu') h.1
    · exact ih h.2 hu' hv'

theorem length_le_of_nodup_lt {l : List Nat} (h : l.Nodup) {n : Nat}
    (hb : ∀ x ∈ l, x < n) : l.length ≤ n := by
  have hsub : l.toFinset ⊆ Finset.range n := by
    intro x hx
    exact Finset.mem_range.mpr (hb x (List.mem_toFinset.mp hx))
  have := Finset.card_le_card hsub
  rwa [List.toFinset_card_of_nodup h, Finset.card_range] at this

theorem length_le_length_of_nodup_subset {l l' : List Nat} (h : l.Nodup)
    (hs : ∀ x ∈ l, x ∈ l') : l.length ≤ l'.length := by
  have h1 : l.toFinset ⊆ l'.toFinset := by
    intro x hx
    exact List.mem_toFinset.mpr (hs x (List.mem_toFinset.mp hx))
  calc l.length = l.toFinset.card := (List.toFinset_card_of_nodup h).symm
    _ ≤ l'.toFinset.card := Finset.card_le_card h1
    _ ≤ l'.length := l'.toFinset_card_le

/-! ### Case analyses for the per-unit update maps -/

theorem markConverting_mem_cases {x : Nat} {l : List WorkUnit} {u' : WorkUnit}
    (h : u' ∈ markConverting x l) :
    (∃ u ∈ l, u.id = x ∧ u' = { u with status := Status.converting }) ∨
    (u' ∈ l ∧ u'.id ≠ x) := by
  obtain ⟨u, hu, rfl⟩ := List.mem_map.mp h
  by_cases hid : u.id = x
  · exact Or.inl ⟨u, hu, hid, by simp [hid]⟩
  · right
    simp only [if_neg hid]
    exact ⟨hu, hid⟩

theorem markFileNotFound_mem_cases {x : Nat} {l : List WorkUnit} {u' : WorkUnit}
    (h : u' ∈ markFileNotFound x l) :
    (∃ u ∈ l, u.id = x ∧
      u' = { u with status := Status.error, errorMessage := some "File not found" }) ∨
    (u' ∈ l ∧ u'.id ≠ x) := by
  obtain ⟨u, hu, rfl⟩ := List.mem_map.mp h
  by_cases hid : u.id = x
  · exact Or.inl ⟨u, hu, hid, by simp [hid]⟩
  · right
    simp only [if_neg hid]
    exact ⟨hu, hid⟩

theorem applyEvent_mem_cases {x : Nat} {o : Outcome} {l : List WorkUnit} {u' : WorkUnit}
    (h : u' ∈ applyEvent x o l) :
    (∃ u ∈ l, u.id = x ∧
      ((∃ b sz, o = Outcome.done b sz ∧
        u' = { u with status := Status.done, convertedUrl := some b,
                      convertedSize := sz, errorMessage := none }) ∨
       (∃ m, o = Outcome.error m ∧
        u' = { u with status := Status.error, convertedUrl := none,
                      convertedSize := 0, errorMessage := some m }))) ∨
    (u' ∈ l ∧ u'.id ≠ x) := by
  obtain ⟨u, hu, rfl⟩ := List.mem_map.mp h
  by_cases hid : u.id = x
  · left
    refine ⟨u, hu, hid, ?_⟩
    cases o with
    | done b sz => exact Or.inl ⟨b, sz, rfl, by simp [hid]⟩
    | error m => exact Or.inr ⟨m, rfl, by simp [hid]⟩
  · right
    cases o <;> simp only [if_neg hid] <;> exact ⟨hu, hid⟩

theorem retryMap_mem_cases {x : Nat} {l : List WorkUnit} {u' : WorkUnit}
    (h : u' ∈ l.map (fun u =>
      if u.id = x then { u with status := Status.pending, errorMessage := none }
      else u)) :
    (∃ u ∈ l, u.id = x ∧
      u' = { u with status := Status.pending, errorMessage := none }) ∨
    (u' ∈ l ∧ u'.id ≠ x) := by
  obtain ⟨u, hu, rfl⟩ := List.mem_map.mp h
  by_cases hid : u.id = x
  · exact Or.inl ⟨u, hu, hid, by simp [hid]⟩
  · right
    simp only [if_neg hid]
    exact ⟨hu, hid⟩

/-! ### Fields left untouched by `dispatchGo` -/

theorem dispatchGo_numWorkers (i : Nat) (q : List Nat) (s : AppState) :
    (dispatchGo i q s).numWorkers = s.numWorkers := by
  induction q generalizing s with
  | nil => rfl
  | cons x rest ih =>
    cases hc : cacheGet x s.fileCache with
    | some f => simp [dispatchGo, hc]
    | none => simp only [dispatchGo, hc]; exact ih _

theorem dispatchGo_nextId (i : Nat) (q : List Nat) (s : AppState) :
    (dispatchGo i q s).nextId = s.nextId := by
  induction q generalizing s with
  | nil => rfl
  | cons x rest ih =>
    cases hc : cacheGet x s.fileCache with
    | some f => simp [dispatchGo, hc]
    | none => simp only [dispatchGo, hc]; exact ih _

theorem dispatchGo_isConverting (i : Nat) (q : List Nat) (s : AppState) :
    (dispatchGo i q s).isConverting = s.isConverting := by
  induction q generalizing s with
  | nil => rfl
  | cons x rest ih =>
    cases hc : cacheGet x s.fileCache with
    | some f => simp [dispatchGo, hc]
    | none => simp only [dispatchGo, hc]; exact ih _

theorem dispatchGo_fileCache (i : Nat) (q : List Nat) (s : AppState) :
    (dispatchGo i q s).fileCache = s.fileCache := by
  induction q generalizing s with
  | nil => rfl
  | cons x rest ih =>
    cases hc : cacheGet x s.fileCache with
    | some f => simp [dispatchGo, hc]
    | none => simp only [dispatchGo, hc]; exact ih _

theorem dispatchGo_enqueuedEver (i : Nat) (q : List Nat) (s : AppState) :
    (dispatchGo i q s).enqueuedEver = s.enqueuedEver := by
  induction q generalizing s with
  | nil => rfl
  | cons x rest ih =>
    cases hc : cacheGet x s.fileCache with
    | some f => simp [dispatchGo, hc]
    | none => simp only [dispatchGo, hc]; exact ih _

theorem dispatchGo_ids (i : Nat) (q : List Nat) (s : AppState) :
    idsOf (dispatchGo i q s).imageList = idsOf s.imageList := by
  induction q generalizing s with
  | nil => rfl
  | cons x rest ih =>
    cases hc : cacheGet x s.fileCache with
    | some f => simp [dispatchGo, hc, idsOf_markConverting]
    | none =>
      simp only [dispatchGo, hc]
      rw [ih]
      exact idsOf_markFileNotFound x s.imageList

theorem dispatchGo_busy_mono {j : Nat} (i : Nat) (q : List Nat) (s : AppState)
    (h : j ∈ s.busyWorkers) : j ∈ (dispatchGo i q s).busyWorkers := by
  induction q generalizing s with
  | nil => exact h
  | cons x rest ih =>
    cases hc : cacheGet x s.fileCache with
    | some f =>
      simp only [dispatchGo, hc]
      exact mem_setInsert.mpr (Or.inr h)
    | none =>
      simp only [dispatchGo, hc]
      exact ih _ h

theorem dispatchGo_busy_sub {j : Nat} (i : Nat) (q : List Nat) (s : AppState)
    (h : j ∈ (dispatchGo i q s).busyWorkers) : j ∈ s.busyWorkers ∨ j = i := by
  induction q generalizing s with
  | nil => exact Or.inl h
  | cons x rest ih =>
    cases hc : cacheGet x s.fileCache with
    | some f =>
      simp only [dispatchGo, hc] at h
      rcases mem_setInsert.mp h with rfl | hj
      · exact Or.inr rfl
      · exact Or.inl hj
    | none =>
      simp only [dispatchGo, hc] at h
      rcases ih _ h with h1 | h1
      · exact Or.inl h1
      · exact Or.inr h1

theorem dispatchGo_flight_mono {p : Nat × Nat} (i : Nat) (q : List Nat) (s : AppState)
    (h : p ∈ s.inFlight) : p ∈ (dispatchGo i q s).inFlight := by
  induction q generalizing s with
  | nil => exact h
  | cons x rest ih =>
    cases hc : cacheGet x s.fileCache with
    | some f =>
      simp only [dispatchGo, hc]
      exact List.mem_cons_of_mem _ h
    | none =>
      simp only [dispatchGo, hc]
      exact ih _ h

theorem dispatchGo_flight_sub {p : Nat × Nat} (i : Nat) (q : List Nat) (s : AppState)
    (h : p ∈ (dispatchGo i q s).inFlight) : p ∈ s.inFlight ∨ (p.1 = i ∧ p.2 ∈ q) := by
  induction q generalizing s with
  | nil => exact Or.inl h
  | cons x rest ih =>
    cases hc : cacheGet x s.fileCache with
    | some f =>
      simp only [dispatchGo, hc] at h
      rcases List.mem_cons.mp h with rfl | hp
      · exact Or.inr ⟨rfl, List.mem_cons_self _ _⟩
      · exact Or.inl hp
    | none =>
      simp only [dispatchGo, hc] at h
      rcases ih _ h with hp | ⟨h1, h2⟩
      · exact Or.inl hp
      · exact Or.inr ⟨h1, List.mem_cons_of_mem _ h2⟩

theorem dispatchGo_queue_suffix (i : Nat) (q : List Nat) (s : AppState)
    (hq : s.conversionQueue = q) : (dispatchGo i q s).conversionQueue <:+ q := by
  induction q generalizing s with
  | nil => simp [dispatchGo, hq]
  | cons x rest ih =>
    cases hc : cacheGet x s.fileCache with
    | some f =>
      simp only [dispatchGo, hc]
      exact List.suffix_cons x rest
    | none =>
      simp only [dispatchGo, hc]
      exact (ih _ rfl).trans (List.suffix_cons x rest)

theorem dispatchGo_busy_head_cached {i : Nat} {x : Nat} {rest : List Nat}
    {s : AppState} (hc : (cacheGet x s.fileCache).isSome = true) :
    i ∈ (dispatchGo i (x :: rest) s).busyWorkers := by
  cases hcc : cacheGet x s.fileCache with
  | none => rw [hcc] at hc; cases hc
  | some f =>
    simp only [dispatchGo, hcc]
    exact self_mem_setInsert i _

/-! ### The dispatcher invariant (holds in every reachable state, resets
included) -/

theorem url_eq_none {l : List WorkUnit}
    (hiff : ∀ u ∈ l, (u.status = Status.done ↔ u.convertedUrl ≠ none))
    {u : WorkUnit} (hu : u ∈ l) (hnd : u.status ≠ Status.done) :
    u.convertedUrl = none := by
  by_contra hne
  exact hnd ((hiff u hu).mpr hne)

theorem invA_dispatchGo (i : Nat) (q : List Nat) (s : AppState)
    (hq : s.conversionQueue = q) (hi : i < s.numWorkers) (h : InvA s) :
    InvA (dispatchGo i q s) := by
  induction q generalizing s with
  | nil => simpa [dispatchGo] using h
  | cons x rest ih =>
    have hxq : x ∈ s.conversionQueue := by
      rw [hq]; exact List.mem_cons_self x rest
    have hqnd := h.queueNodup
    rw [hq] at hqnd
    have hnotin : x ∉ rest := (List.nodup_cons.mp hqnd).1
    have hrestnd : rest.Nodup := (List.nodup_cons.mp hqnd).2
    have hxflight : x ∉ flightIds s := h.queueFlightDisj x hxq
    obtain ⟨u0, hu0, hu0id⟩ := List.mem_map.mp (h.queueInList x hxq)
    have hxlt : x < s.nextId := hu0id ▸ h.idLt u0 hu0
    have hrest_sub : ∀ y ∈ rest, y ∈ s.conversionQueue := by
      intro y hy; rw [hq]; exact List.mem_cons_of_mem x hy
    have hxstat : ∀ u ∈ s.imageList, u.id = x →
        u.status = Status.pending ∨ u.status = Status.error :=
      h.queueStatus x hxq
    cases hc : cacheGet x s.fileCache with
    | some f =>
      simp only [dispatchGo, hc]
      refine { nodupIds := ?nodupIds, idLt := ?idLt, cacheLt := ?cacheLt,
               queueInList := ?queueInList, unitCached := ?unitCached,
               queueNodup := ?queueNodup, flightIdsNodup := ?flightIdsNodup,
               queueFlightDisj := ?queueFlightDisj, flightLt := ?flightLt,
               queueStatus := ?queueStatus, flightStatus := ?flightStatus,
               convFlight := ?convFlight, doneIff := ?doneIff,
               slotLt := ?slotLt, oneW := ?oneW, enqInv := ?enqInv }
      case nodupIds =>
        show (idsOf (markConverting x s.imageList)).Nodup
        rw [idsOf_markConverting]
        exact h.nodupIds
      case idLt =>
        intro u' hu'
        rcases markConverting_mem_cases hu' with ⟨u, hu, _, rfl⟩ | ⟨hu, _⟩
        · exact h.idLt u hu
        · exact h.idLt u' hu
      case cacheLt => exact h.cacheLt
      case queueInList =>
        intro y hy
        show y ∈ idsOf (markConverting x s.imageList)
        rw [idsOf_markConverting]
        exact h.queueInList y (hrest_sub y hy)
      case unitCached =>
        intro y hy
        rw [show idsOf (markConverting x s.imageList) = idsOf s.imageList from
          idsOf_markConverting x s.imageList] at hy
        exact h.unitCached y hy
      case queueNodup => exact hrestnd
      case flightIdsNodup =>
        exact List.nodup_cons.mpr ⟨hxflight, h.flightIdsNodup⟩
      case queueFlightDisj =>
        intro y hy hmem
        rcases List.mem_cons.mp hmem with rfl | hmem'
        · exact hnotin hy
        · exact h.queueFlightDisj y (hrest_sub y hy) hmem'
      case flightLt =>
        intro p hp
        rcases List.mem_cons.mp hp with rfl | hp'
        · exact hxlt
        · exact h.flightLt p hp'
      case queueStatus =>
        intro y hy u' hu' hid
        rcases markConverting_mem_cases hu' with ⟨u, hu, huid, rfl⟩ | ⟨hu, hne⟩
        · exact absurd hy (by
            have : (x : Nat) = y := by
              have : u.id = y := hid
              rw [huid] at this; exact this
            rw [← this]; exact hnotin)
        · exact h.queueStatus y (hrest_sub y hy) u' hu hid
      case flightStatus =>
        intro p hp u' hu' hid
        rcases List.mem_cons.mp hp with rfl | hp'
        · rcases markConverting_mem_cases hu' with ⟨u, hu, huid, rfl⟩ | ⟨hu, hne⟩
          · rfl
          · exact absurd hid hne
        · rcases markConverting_mem_cases hu' with ⟨u, hu, huid, rfl⟩ | ⟨hu, hne⟩
          · exfalso
            apply hxflight
            have hpx : p.2 = x := by rw [← hid]; exact huid
            rw [← hpx]
            exact List.mem_map_of_mem Prod.snd hp'
          · exact h.flightStatus p hp' u' hu hid
      case convFlight =>
        intro u' hu' hst
        rcases markConverting_mem_cases hu' with ⟨u, hu, huid, rfl⟩ | ⟨hu, hne⟩
        · show u.id ∈ x :: flightIds s
          rw [huid]
          exact List.mem_cons_self x _
        · exact List.mem_cons_of_mem x (h.convFlight u' hu hst)
      case doneIff =>
        intro u' hu'
        rcases markConverting_mem_cases hu' with ⟨u, hu, huid, rfl⟩ | ⟨hu, hne⟩
        · have hnd : u.status ≠ Status.done := by
            rcases hxstat u hu huid with h1 | h1 <;> simp [h1]
          have hnone : u.convertedUrl = none := url_eq_none h.doneIff hu hnd
          simp [hnone]
        · exact h.doneIff u' hu
      case slotLt =>
        intro p hp
        rcases List.mem_cons.mp hp with rfl | hp'
        · exact hi
        · exact h.slotLt p hp'
      case oneW => exact h.oneW
      case enqInv =>
        intro y hy
        rcases h.enqInv y hy with hq' | hf | ht
        · rw [hq] at hq'
          rcases List.mem_cons.mp hq' with rfl | hr
          · exact Or.inr (Or.inl (List.mem_cons_self y _))
          · exact Or.inl hr
        · exact Or.inr (Or.inl (List.mem_cons_of_mem x hf))
        · exact Or.inr (Or.inr ht)
    | none =>
      simp only [dispatchGo, hc]
      refine ih _ rfl hi ?_
      refine { nodupIds := ?nodupIds, idLt := ?idLt, cacheLt := ?cacheLt,
               queueInList := ?queueInList, unitCached := ?unitCached,
               queueNodup := ?queueNodup, flightIdsNodup := ?flightIdsNodup,
               queueFlightDisj := ?queueFlightDisj, flightLt := ?flightLt,
               queueStatus := ?queueStatus, flightStatus := ?flightStatus,
               convFlight := ?convFlight, doneIff := ?doneIff,
               slotLt := ?slotLt, oneW := ?oneW, enqInv := ?enqInv }
      case nodupIds =>
        show (idsOf (markFileNotFound x s.imageList)).Nodup
        rw [idsOf_markFileNotFound]
        exact h.nodupIds
      case idLt =>
        intro u' hu'
        rcases markFileNotFound_mem_cases hu' with ⟨u, hu, _, rfl⟩ | ⟨hu, _⟩
        · exact h.idLt u hu
        · exact h.idLt u' hu
      case cacheLt => exact h.cacheLt
      case queueInList =>
        intro y hy
        show y ∈ idsOf (markFileNotFound x s.imageList)
        rw [idsOf_markFileNotFound]
        exact h.queueInList y (hrest_sub y hy)
      case unitCached =>
        intro y hy
        rw [show idsOf (markFileNotFound x s.imageList) = idsOf s.imageList from
          idsOf_markFileNotFound x s.imageList] at hy
        exact h.unitCached y hy
      case queueNodup => exact hrestnd
      case flightIdsNodup => exact h.flightIdsNodup
      case queueFlightDisj =>
        intro y hy
        exact h.queueFlightDisj y (hrest_sub y hy)
      case flightLt => exact h.flightLt
      case queueStatus =>
        intro y hy u' hu' hid
        rcases markFileNotFound_mem_cases hu' with ⟨u, hu, huid, rfl⟩ | ⟨hu, hne⟩
        · exact Or.inr rfl
        · exact h.queueStatus y (hrest_sub y hy) u' hu hid
      case flightStatus =>
        intro p hp u' hu' hid
        rcases markFileNotFound_mem_cases hu' with ⟨u, hu, huid, rfl⟩ | ⟨hu, hne⟩
        · exfalso
          apply hxflight
          have hpx : p.2 = x := by rw [← hid]; exact huid
          rw [← hpx]
          exact List.mem_map_of_mem Prod.snd hp
        · exact h.flightStatus p hp u' hu hid
      case convFlight =>
        intro u' hu' hst
        rcases markFileNotFound_mem_cases hu' with ⟨u, hu, huid, rfl⟩ | ⟨hu, hne⟩
        · exact absurd hst (by simp)
        · exact h.convFlight u' hu hst
      case doneIff =>
        intro u' hu'
        rcases markFileNotFound_mem_cases hu' with ⟨u, hu, huid, rfl⟩ | ⟨hu, hne⟩
        · have hnd : u.status ≠ Status.done := by
            rcases hxstat u hu huid with h1 | h1 <;> simp [h1]
          have hnone : u.convertedUrl = none := url_eq_none h.doneIff hu hnd
          simp [hnone]
        · exact h.doneIff u' hu
      case slotLt => exact h.slotLt
      case oneW => exact h.oneW
      case enqInv =>
        intro y hy
        rcases h.enqInv y hy with hq' | hf | ht
        · rw [hq] at hq'
          rcases List.mem_cons.mp hq' with rfl | hr
          · exact Or.inr (Or.inr (List.mem_cons_self y _))
          · exact Or.inl hr
        · exact Or.inr (Or.inl hf)
        · exact Or.inr (Or.inr (List.mem_cons_of_mem x ht))

theorem invA_dispatchJob (i : Nat) (s : AppState) (hi : i < s.numWorkers)
    (h : InvA s) : InvA (dispatchJob i s) :=
  invA_dispatchGo i s.conversionQueue s rfl hi h

theorem processable_iff {u : WorkUnit} :
    processable u = true ↔ (u.status = Status.pending ∨ u.status = Status.error) := by
  simp [processable]

theorem idsOf_retryMap (x : Nat) (l : List WorkUnit) :
    idsOf (l.map (fun u =>
      if u.id = x then { u with status := Status.pending, errorMessage := none }
      else u)) = idsOf l := by
  apply idsOf_map_pres
  intro u; by_cases h : u.id = x <;> simp [h]

theorem eq_of_snd_eq {l : List (Nat × Nat)} (h : (l.map Prod.snd).Nodup)
    {p q : Nat × Nat} (hp : p ∈ l) (hq : q ∈ l) (he : p.2 = q.2) : p = q := by
  induction l with
  | nil => cases hp
  | cons w t ih =>
    simp only [List.map_cons, List.nodup_cons] at h
    rcases List.mem_cons.mp hp with rfl | hp' <;>
      rcases List.mem_cons.mp hq with rfl | hq'
    · rfl
    · exact absurd (he ▸ List.mem_map_of_mem Prod.snd hq') h.1
    · exact absurd (he ▸ List.mem_map_of_mem Prod.snd hp') h.1
    · exact ih h.2 hp' hq'

theorem dispatchJob_numWorkers (i : Nat) (s : AppState) :
    (dispatchJob i s).numWorkers = s.numWorkers :=
  dispatchGo_numWorkers i s.conversionQueue s

theorem dispatchJob_isConverting (i : Nat) (s : AppState) :
    (dispatchJob i s).isConverting = s.isConverting :=
  dispatchGo_isConverting i s.conversionQueue s

/-! ### The fill loop -/

theorem invA_foldFill (l : List Nat) (s : AppState)
    (hl : ∀ j ∈ l, j < s.numWorkers) (h : InvA s) :
    InvA (l.foldl
      (fun st i => if i ∈ st.busyWorkers then st else dispatchJob i st) s) := by
  induction l generalizing s with
  | nil => exact h
  | cons j t ih =>
    simp only [List.foldl_cons]
    by_cases hb : j ∈ s.busyWorkers
    · rw [if_pos hb]
      exact ih s (fun k hk => hl k (List.mem_cons_of_mem j hk)) h
    · rw [if_neg hb]
      have h1 := invA_dispatchJob j s (hl j (List.mem_cons_self j t)) h
      refine ih _ ?_ h1
      intro k hk
      rw [dispatchJob_numWorkers]
      exact hl k (List.mem_cons_of_mem j hk)

theorem foldFill_busy_mono (l : List Nat) (s : AppState) {j : Nat}
    (h : j ∈ s.busyWorkers) :
    j ∈ (l.foldl
      (fun st i => if i ∈ st.busyWorkers then st else dispatchJob i st) s).busyWorkers := by
  induction l generalizing s with
  | nil => exact h
  | cons k t ih =>
    simp only [List.foldl_cons]
    by_cases hb : k ∈ s.busyWorkers
    · rw [if_pos hb]; exact ih s h
    · rw [if_neg hb]
      exact ih _ (dispatchGo_busy_mono k s.conversionQueue s h)

theorem foldFill_isConverting (l : List Nat) (s : AppState) :
    (l.foldl
      (fun st i => if i ∈ st.busyWorkers then st else dispatchJob i st) s).isConverting
      = s.isConverting := by
  induction l generalizing s with
  | nil => rfl
  | cons k t ih =>
    simp only [List.foldl_cons]
    by_cases hb : k ∈ s.busyWorkers
    · rw [if_pos hb]; exact ih s
    · rw [if_neg hb]
      rw [ih _, dispatchJob_isConverting]

theorem foldFill_queue_suffix (l : List Nat) (s : AppState) :
    (l.foldl
      (fun st i => if i ∈ st.busyWorkers then st else dispatchJob i st)
      s).conversionQueue <:+ s.conversionQueue := by
  induction l generalizing s with
  | nil => exact List.suffix_refl _
  | cons k t ih =>
    simp only [List.foldl_cons]
    by_cases hb : k ∈ s.busyWorkers
    · rw [if_pos hb]; exact ih s
    · rw [if_neg hb]
      exact (ih _).trans (dispatchGo_queue_suffix k s.conversionQueue s rfl)

theorem invA_fillIdleSlots (s : AppState) (h : InvA s) : InvA (fillIdleSlots s) :=
  invA_foldFill (List.range s.numWorkers) s
    (fun _ hj => List.mem_range.mp hj) h

theorem fillIdleSlots_isConverting (s : AppState) :
    (fillIdleSlots s).isConverting = s.isConverting :=
  foldFill_isConverting (List.range s.numWorkers) s

theorem fillIdleSlots_busy_nonempty (s : AppState) (hW : 1 ≤ s.numWorkers)
    (hb : s.busyWorkers = []) (hq : s.conversionQueue ≠ [])
    (hcached : ∀ x ∈ s.conversionQueue, (cacheGet x s.fileCache).isSome = true) :
    (fillIdleSlots s).busyWorkers ≠ [] := by
  obtain ⟨n, hn⟩ : ∃ n, s.numWorkers = n + 1 :=
    ⟨s.numWorkers - 1, by omega⟩
  unfold fillIdleSlots
  rw [hn, List.range_succ_eq_map, List.foldl_cons]
  have hb0 : (0 : Nat) ∉ s.busyWorkers := by rw [hb]; exact List.not_mem_nil 0
  rw [if_neg hb0]
  obtain ⟨x, rest, hxr⟩ : ∃ x rest, s.conversionQueue = x :: rest := by
    cases hcq : s.conversionQueue with
    | nil => exact absurd hcq hq
    | cons a b => exact ⟨a, b, rfl⟩
  have h0 : (0 : Nat) ∈ (dispatchJob 0 s).busyWorkers := by
    unfold dispatchJob
    rw [hxr]
    exact dispatchGo_busy_head_cached
      (hcached x (by rw [hxr]; exact List.mem_cons_self x rest))
  intro hcon
  have := foldFill_busy_mono (List.map Nat.succ (List.range n)) (dispatchJob 0 s) h0
  rw [hcon] at this
  cases this

/-! ### Flag invariants and per-step preservation -/

theorem invA_setErrorMsg {s : AppState} (m : String) (h : InvA s) :
    InvA { s with errorMsg := m } :=
  { nodupIds := h.nodupIds, idLt := h.idLt, cacheLt := h.cacheLt,
    queueInList := h.queueInList, unitCached := h.unitCached,
    queueNodup := h.queueNodup, flightIdsNodup := h.flightIdsNodup,
    queueFlightDisj := h.queueFlightDisj, flightLt := h.flightLt,
    queueStatus := h.queueStatus, flightStatus := h.flightStatus,
    convFlight := h.convFlight, doneIff := h.doneIff, slotLt := h.slotLt,
    oneW := h.oneW, enqInv := h.enqInv }

theorem sysInv_init (P : Nat) (hP : 1 ≤ P) : SysInv (initState P) := by
  refine ⟨?_, ?_⟩
  · exact
      { nodupIds := List.nodup_nil,
        idLt := fun u hu => absurd hu (List.not_mem_nil u),
        cacheLt := fun p hp => absurd hp (List.not_mem_nil p),
        queueInList := fun y hy => absurd hy (List.not_mem_nil y),
        unitCached := fun y hy => absurd hy (List.not_mem_nil y),
        queueNodup := List.nodup_nil,
        flightIdsNodup := List.nodup_nil,
        queueFlightDisj := fun y hy => absurd hy (List.not_mem_nil y),
        flightLt := fun p hp => absurd hp (List.not_mem_nil p),
        queueStatus := fun y hy => absurd hy (List.not_mem_nil y),
        flightStatus := fun p hp => absurd hp (List.not_mem_nil p),
        convFlight := fun u hu => absurd hu (List.not_mem_nil u),
        doneIff := fun u hu => absurd hu (List.not_mem_nil u),
        slotLt := fun p hp => absurd hp (List.not_mem_nil p),
        oneW := hP,
        enqInv := fun y hy => absurd hy (List.not_mem_nil y) }
  · exact ⟨fun _ => ⟨rfl, rfl⟩, fun ht => by simp [initState] at ht⟩

theorem sysInv_upload (files : List InputFile) (s : AppState) (h : SysInv s) :
    SysInv (handleImageUpload files s) := by
  obtain ⟨hA, hB⟩ := h
  unfold handleImageUpload
  by_cases he : (files.filter isValidFile).isEmpty = true
  case pos =>
    rw [if_pos he]
    by_cases hf : files.isEmpty = true
    case pos => rw [if_pos hf]; exact ⟨hA, hB⟩
    case neg =>
      rw [if_neg hf]
      exact ⟨invA_setErrorMsg _ hA, hB⟩
  case neg =>
    rw [if_neg he]
    refine ⟨?_, hB⟩
    refine { nodupIds := ?nodupIds, idLt := ?idLt, cacheLt := ?cacheLt,
             queueInList := ?queueInList, unitCached := ?unitCached,
             queueNodup := hA.queueNodup, flightIdsNodup := hA.flightIdsNodup,
             queueFlightDisj := hA.queueFlightDisj, flightLt := ?flightLt,
             queueStatus := ?queueStatus, flightStatus := ?flightStatus,
             convFlight := ?convFlight, doneIff := ?doneIff,
             slotLt := hA.slotLt, oneW := hA.oneW, enqInv := hA.enqInv }
    case nodupIds =>
      show (idsOf (s.imageList ++ (registerAux s.nextId (files.filter isValidFile)).1)).Nodup
      rw [idsOf_append]
      refine List.Nodup.append hA.nodupIds ?_ ?_
      · rw [regAux_fst_ids]
        exact List.nodup_range' _ _
      · intro a ha hb
        rw [regAux_fst_ids] at hb
        obtain ⟨u, hu, rfl⟩ := List.mem_map.mp ha
        have h1 := hA.idLt u hu
        have h2 := (List.mem_range'_1.mp hb).1
        omega
    case idLt =>
      intro u hu
      rcases List.mem_append.mp hu with hl | hr
      · have := hA.idLt u hl
        show u.id < s.nextId + (files.filter isValidFile).length
        omega
      · exact (regAux_fst_mem hr).2.2.2
    case cacheLt =>
      intro p hp
      rcases List.mem_append.mp hp with hl | hr
      · have := hA.cacheLt p hl
        show p.1 < s.nextId + (files.filter isValidFile).length
        omega
      · exact (regAux_snd_mem hr).2
    case queueInList =>
      intro y hy
      show y ∈ idsOf (s.imageList ++ (registerAux s.nextId (files.filter isValidFile)).1)
      rw [idsOf_append]
      exact List.mem_append_left _ (hA.queueInList y hy)
    case unitCached =>
      intro y hy
      rw [show idsOf (s.imageList ++ (registerAux s.nextId (files.filter isValidFile)).1)
            = idsOf s.imageList ++ idsOf (registerAux s.nextId (files.filter isValidFile)).1
          from idsOf_append _ _] at hy
      rcases List.mem_append.mp hy with hl | hr
      · obtain ⟨f, hf⟩ := Option.isSome_iff_exists.mp (hA.unitCached y hl)
        rw [cacheGet_append_some hf]
        rfl
      · rw [regAux_fst_ids] at hr
        have hyr := List.mem_range'_1.mp hr
        have hnone : cacheGet y s.fileCache = none :=
          cacheGet_eq_none_of_lt
            (fun p hp => Nat.lt_of_lt_of_le (hA.cacheLt p hp) hyr.1)
        rw [cacheGet_append_none hnone]
        exact regAux_cacheGet hyr.1 hyr.2
    case flightLt =>
      intro p hp
      have := hA.flightLt p hp
      show p.2 < s.nextId + (files.filter isValidFile).length
      omega
    case queueStatus =>
      intro y hy u hu hid
      rcases List.mem_append.mp hu with hl | hr
      · exact hA.queueStatus y hy u hl hid
      · exact Or.inl (regAux_fst_mem hr).1
    case flightStatus =>
      intro p hp u hu hid
      rcases List.mem_append.mp hu with hl | hr
      · exact hA.flightStatus p hp u hl hid
      · exfalso
        have h1 := (regAux_fst_mem hr).2.2.1
        have h2 := hA.flightLt p hp
        rw [hid] at h1
        omega
    case convFlight =>
      intro u hu hst
      rcases List.mem_append.mp hu with hl | hr
      · exact hA.convFlight u hl hst
      · exfalso
        have h1 := (regAux_fst_mem hr).1
        rw [h1] at hst
        exact Status.noConfusion hst
    case doneIff =>
      intro u hu
      rcases List.mem_append.mp hu with hl | hr
      · exact hA.doneIff u hl
      · obtain ⟨h1, h2, _, _⟩ := regAux_fst_mem hr
        rw [h1, h2]
        simp

theorem sysInv_setQual (q : Nat) (s : AppState) (h : SysInv s) :
    SysInv (setQualityTo q s) := by
  obtain ⟨hA, hB⟩ := h
  refine ⟨?_, hB⟩
  exact
    { nodupIds := hA.nodupIds, idLt := hA.idLt, cacheLt := hA.cacheLt,
      queueInList := hA.queueInList, unitCached := hA.unitCached,
      queueNodup := hA.queueNodup, flightIdsNodup := hA.flightIdsNodup,
      queueFlightDisj := hA.queueFlightDisj, flightLt := hA.flightLt,
      queueStatus := hA.queueStatus, flightStatus := hA.flightStatus,
      convFlight := hA.convFlight, doneIff := hA.doneIff, slotLt := hA.slotLt,
      oneW := hA.oneW, enqInv := hA.enqInv }

theorem sysInv_reset (s : AppState) (h : SysInv s) : SysInv (resetState s) := by
  obtain ⟨hA, _⟩ := h
  refine ⟨?_, ?_⟩
  · exact
      { nodupIds := List.nodup_nil,
        idLt := fun u hu => absurd hu (List.not_mem_nil u),
        cacheLt := fun p hp => absurd hp (List.not_mem_nil p),
        queueInList := fun y hy => absurd hy (List.not_mem_nil y),
        unitCached := fun y hy => absurd hy (List.not_mem_nil y),
        queueNodup := List.nodup_nil,
        flightIdsNodup := hA.flightIdsNodup,
        queueFlightDisj := fun y hy => absurd hy (List.not_mem_nil y),
        flightLt := hA.flightLt,
        queueStatus := fun y hy => absurd hy (List.not_mem_nil y),
        flightStatus := fun p hp u hu => absurd hu (List.not_mem_nil u),
        convFlight := fun u hu => absurd hu (List.not_mem_nil u),
        doneIff := fun u hu => absurd hu (List.not_mem_nil u),
        slotLt := hA.slotLt,
        oneW := hA.oneW,
        enqInv := fun y hy => absurd hy (List.not_mem_nil y) }
  · exact ⟨fun _ => ⟨rfl, rfl⟩, fun ht => by simp [resetState] at ht⟩

theorem sysInv_retry (x : Nat) (s : AppState) (h : SysInv s)
    (hg : ∃ u, u ∈ s.imageList ∧ u.id = x ∧ u.status = Status.error) :
    SysInv (handleRetry x s) := by
  obtain ⟨hA, hB⟩ := h
  obtain ⟨w, hw, hwid, hwst⟩ := hg
  unfold handleRetry
  refine ⟨?_, hB⟩
  refine { nodupIds := ?nodupIds, idLt := ?idLt, cacheLt := hA.cacheLt,
           queueInList := ?queueInList, unitCached := ?unitCached,
           queueNodup := hA.queueNodup, flightIdsNodup := hA.flightIdsNodup,
           queueFlightDisj := hA.queueFlightDisj, flightLt := hA.flightLt,
           queueStatus := ?queueStatus, flightStatus := ?flightStatus,
           convFlight := ?convFlight, doneIff := ?doneIff,
           slotLt := hA.slotLt, oneW := hA.oneW, enqInv := hA.enqInv }
  case nodupIds =>
    show (idsOf (s.imageList.map _)).Nodup
    rw [idsOf_retryMap]
    exact hA.nodupIds
  case idLt =>
    intro u' hu'
    rcases retryMap_mem_cases hu' with ⟨u, hu, _, rfl⟩ | ⟨hu, _⟩
    · exact hA.idLt u hu
    · exact hA.idLt u' hu
  case queueInList =>
    intro y hy
    show y ∈ idsOf (s.imageList.map _)
    rw [idsOf_retryMap]
    exact hA.queueInList y hy
  case unitCached =>
    intro y hy
    rw [show idsOf (s.imageList.map (fun u =>
          if u.id = x then { u with status := Status.pending, errorMessage := none }
          else u)) = idsOf s.imageList from idsOf_retryMap x s.imageList] at hy
    exact hA.unitCached y hy
  case queueStatus =>
    intro y hy u' hu' hid
    rcases retryMap_mem_cases hu' with ⟨u, hu, huid, rfl⟩ | ⟨hu, hne⟩
    · exact Or.inl rfl
    · exact hA.queueStatus y hy u' hu hid
  case flightStatus =>
    intro p hp u' hu' hid
    rcases retryMap_mem_cases hu' with ⟨u, hu, huid, rfl⟩ | ⟨hu, hne⟩
    · exfalso
      have hpx : p.2 = x := by rw [← hid]; exact huid
      have := hA.flightStatus p hp w hw (by rw [hwid, hpx])
      rw [hwst] at this
      exact Status.noConfusion this
    · exact hA.flightStatus p hp u' hu hid
  case convFlight =>
    intro u' hu' hst
    rcases retryMap_mem_cases hu' with ⟨u, hu, huid, rfl⟩ | ⟨hu, hne⟩
    · exact Status.noConfusion hst
    · exact hA.convFlight u' hu hst
  case doneIff =>
    intro u' hu'
    rcases retryMap_mem_cases hu' with ⟨u, hu, huid, rfl⟩ | ⟨hu, hne⟩
    · have hueq : u = w := eq_of_mem_of_id_eq hA.nodupIds hu hw (by rw [huid, hwid])
      have hnd : u.status ≠ Status.done := by
        rw [hueq, hwst]
        simp
      have hnone : u.convertedUrl = none := url_eq_none hA.doneIff hu hnd
      simp [hnone]
    · exact hA.doneIff u' hu

theorem sysInv_remove (x : Nat) (s : AppState) (h : SysInv s) :
    SysInv (removeImage x s) := by
  obtain ⟨hA, hB⟩ := h
  unfold removeImage
  refine ⟨?_, ?_⟩
  · refine { nodupIds := ?nodupIds, idLt := ?idLt, cacheLt := ?cacheLt,
             queueInList := ?queueInList, unitCached := ?unitCached,
             queueNodup := ?queueNodup, flightIdsNodup := hA.flightIdsNodup,
             queueFlightDisj := ?queueFlightDisj, flightLt := hA.flightLt,
             queueStatus := ?queueStatus, flightStatus := ?flightStatus,
             convFlight := ?convFlight, doneIff := ?doneIff,
             slotLt := hA.slotLt, oneW := hA.oneW, enqInv := ?enqInv }
    case nodupIds =>
      exact hA.nodupIds.sublist ((List.filter_sublist _).map WorkUnit.id)
    case idLt =>
      intro u hu
      exact hA.idLt u (List.mem_of_mem_filter hu)
    case cacheLt =>
      intro p hp
      exact hA.cacheLt p (List.mem_of_mem_filter hp)
    case queueInList =>
      intro y hy
      have hy' := List.mem_filter.mp hy
      have hyx : y ≠ x := by
        have := hy'.2
        exact bne_iff_ne.mp this
      obtain ⟨u, hu, huid⟩ := List.mem_map.mp (hA.queueInList y hy'.1)
      refine List.mem_map.mpr ⟨u, List.mem_filter.mpr ⟨hu, ?_⟩, huid⟩
      rw [huid]
      exact bne_iff_ne.mpr hyx
    case unitCached =>
      intro y hy
      obtain ⟨u, hu, huid⟩ := List.mem_map.mp hy
      have hu' := List.mem_filter.mp hu
      have hyx : y ≠ x := by
        rw [← huid]
        exact bne_iff_ne.mp hu'.2
      rw [cacheGet_filter_ne _ hyx]
      exact hA.unitCached y (List.mem_map.mpr ⟨u, hu'.1, huid⟩)
    case queueNodup =>
      exact hA.queueNodup.sublist (List.filter_sublist _)
    case queueFlightDisj =>
      intro y hy
      exact hA.queueFlightDisj y (List.mem_of_mem_filter hy)
    case queueStatus =>
      intro y hy u hu hid
      exact hA.queueStatus y (List.mem_of_mem_filter hy) u
        (List.mem_of_mem_filter hu) hid
    case flightStatus =>
      intro p hp u hu hid
      exact hA.flightStatus p hp u (List.mem_of_mem_filter hu) hid
    case convFlight =>
      intro u hu hst
      exact hA.convFlight u (List.mem_of_mem_filter hu) hst
    case doneIff =>
      intro u hu
      exact hA.doneIff u (List.mem_of_mem_filter hu)
    case enqInv =>
      intro y hy
      have hy' := List.mem_filter.mp hy
      rcases hA.enqInv y hy'.1 with hq | hf | ht
      · exact Or.inl (List.mem_filter.mpr ⟨hq, hy'.2⟩)
      · exact Or.inr (Or.inl hf)
      · exact Or.inr (Or.inr ht)
  · refine ⟨fun hf => ?_, fun ht => hB.2 ht⟩
    have := hB.1 hf
    refine ⟨?_, this.2⟩
    show s.conversionQueue.filter _ = []
    rw [this.1]
    rfl

theorem invA_enqueue (s : AppState) (hA : InvA s) (hq0 : s.conversionQueue = []) :
    InvA { s with
           conversionQueue :=
             s.conversionQueue ++ idsOf (s.imageList.filter processable),
           isConverting := true,
           errorMsg := "",
           enqueuedEver :=
             s.enqueuedEver ++ idsOf (s.imageList.filter processable) } := by
  rw [hq0, List.nil_append]
  refine { nodupIds := hA.nodupIds, idLt := hA.idLt, cacheLt := hA.cacheLt,
           queueInList := ?queueInList, unitCached := hA.unitCached,
           queueNodup := ?queueNodup, flightIdsNodup := hA.flightIdsNodup,
           queueFlightDisj := ?queueFlightDisj, flightLt := hA.flightLt,
           queueStatus := ?queueStatus, flightStatus := hA.flightStatus,
           convFlight := hA.convFlight, doneIff := hA.doneIff,
           slotLt := hA.slotLt, oneW := hA.oneW, enqInv := ?enqInv }
  case queueInList =>
    intro y hy
    obtain ⟨u, hu, huid⟩ := List.mem_map.mp hy
    exact List.mem_map.mpr ⟨u, List.mem_of_mem_filter hu, huid⟩
  case queueNodup =>
    exact hA.nodupIds.sublist ((List.filter_sublist _).map WorkUnit.id)
  case queueFlightDisj =>
    intro y hy hmem
    obtain ⟨u, hu, huid⟩ := List.mem_map.mp hy
    obtain ⟨p, hpf, hpy⟩ := List.mem_map.mp hmem
    have hconv := hA.flightStatus p hpf u (List.mem_of_mem_filter hu)
      (by rw [huid, hpy])
    have hproc := processable_iff.mp (List.of_mem_filter hu)
    rcases hproc with h1 | h1 <;> rw [h1] at hconv <;> exact Status.noConfusion hconv
  case queueStatus =>
    intro y hy u' hu' hid
    obtain ⟨w, hw, hwid⟩ := List.mem_map.mp hy
    have hueq : u' = w :=
      eq_of_mem_of_id_eq hA.nodupIds hu' (List.mem_of_mem_filter hw)
        (by rw [hid, hwid])
    rw [hueq]
    exact processable_iff.mp (List.of_mem_filter hw)
  case enqInv =>
    intro y hy
    rcases List.mem_append.mp hy with hl | hr
    · rcases hA.enqInv y hl with hq | hf | ht
      · rw [hq0] at hq
        exact absurd hq (List.not_mem_nil y)
      · exact Or.inr (Or.inl hf)
      · exact Or.inr (Or.inr ht)
    · exact Or.inl hr

theorem sysInv_convert (s : AppState) (h : SysInv s) (hc : s.isConverting = false)
    (hne : s.imageList.filter processable ≠ []) :
    SysInv (convertAllImages s) := by
  obtain ⟨hA, hB⟩ := h
  obtain ⟨hq0, hb0⟩ := hB.1 hc
  unfold convertAllImages
  rw [if_neg (by rw [List.isEmpty_iff]; exact hne)]
  have hA' := invA_enqueue s hA hq0
  have hbatchne : idsOf (s.imageList.filter processable) ≠ [] := by
    intro hcon
    apply hne
    have := congrArg List.length hcon
    simp only [idsOf, List.length_map, List.length_nil] at this
    exact List.length_eq_zero.mp this
  refine ⟨invA_fillIdleSlots _ hA', ?_, ?_⟩
  · intro hf
    rw [fillIdleSlots_isConverting] at hf
    exact absurd hf (by simp)
  · intro _
    apply fillIdleSlots_busy_nonempty
    · exact hA.oneW
    · exact hb0
    · show s.conversionQueue ++ idsOf (s.imageList.filter processable) ≠ []
      rw [hq0, List.nil_append]
      exact hbatchne
    · intro y hy
      rw [hq0, List.nil_append] at hy
      obtain ⟨u, hu, huid⟩ := List.mem_map.mp hy
      exact hA.unitCached y
        (List.mem_map.mpr ⟨u, List.mem_of_mem_filter hu, huid⟩)

theorem invA_consume (i x : Nat) (o : Outcome) (s : AppState) (hA : InvA s)
    (hp : (i, x) ∈ s.inFlight) :
    InvA { s with imageList := applyEvent x o s.imageList,
                  busyWorkers := s.busyWorkers.filter (fun j => j != i),
                  inFlight := s.inFlight.filter (fun p => p != (i, x)),
                  terminalEver := x :: s.terminalEver } := by
  have hxf : x ∈ flightIds s := List.mem_map_of_mem Prod.snd hp
  have hxnq : x ∉ s.conversionQueue := fun hc => hA.queueFlightDisj x hc hxf
  refine { nodupIds := ?nodupIds, idLt := ?idLt, cacheLt := hA.cacheLt,
           queueInList := ?queueInList, unitCached := ?unitCached,
           queueNodup := hA.queueNodup, flightIdsNodup := ?flightIdsNodup,
           queueFlightDisj := ?queueFlightDisj, flightLt := ?flightLt,
           queueStatus := ?queueStatus, flightStatus := ?flightStatus,
           convFlight := ?convFlight, doneIff := ?doneIff,
           slotLt := ?slotLt, oneW := hA.oneW, enqInv := ?enqInv }
  case nodupIds =>
    show (idsOf (applyEvent x o s.imageList)).Nodup
    rw [idsOf_applyEvent]
    exact hA.nodupIds
  case idLt =>
    intro u' hu'
    rcases applyEvent_mem_cases hu' with
      ⟨u, hu, huid, ⟨b, sz, ho, rfl⟩ | ⟨m, ho, rfl⟩⟩ | ⟨hu, hne⟩
    · exact hA.idLt u hu
    · exact hA.idLt u hu
    · exact hA.idLt u' hu
  case queueInList =>
    intro y hy
    show y ∈ idsOf (applyEvent x o s.imageList)
    rw [idsOf_applyEvent]
    exact hA.queueInList y hy
  case unitCached =>
    intro y hy
    rw [show idsOf (applyEvent x o s.imageList) = idsOf s.imageList from
      idsOf_applyEvent x o s.imageList] at hy
    exact hA.unitCached y hy
  case flightIdsNodup =>
    exact hA.flightIdsNodup.sublist ((List.filter_sublist _).map Prod.snd)
  case queueFlightDisj =>
    intro y hy hmem
    obtain ⟨p, hpf, hpy⟩ := List.mem_map.mp hmem
    exact hA.queueFlightDisj y hy
      (hpy ▸ List.mem_map_of_mem Prod.snd (List.mem_of_mem_filter hpf))
  case flightLt =>
    intro p hp'
    exact hA.flightLt p (List.mem_of_mem_filter hp')
  case queueStatus =>
    intro y hy u' hu' hid
    rcases applyEvent_mem_cases hu' with
      ⟨u, hu, huid, ⟨b, sz, ho, rfl⟩ | ⟨m, ho, rfl⟩⟩ | ⟨hu, hne⟩
    · exfalso
      apply hxnq
      have : y = x := by rw [← hid]; exact huid
      rw [← this]
      exact hy
    · exfalso
      apply hxnq
      have : y = x := by rw [← hid]; exact huid
      rw [← this]
      exact hy
    · exact hA.queueStatus y hy u' hu hid
  case flightStatus =>
    intro p' hp' u' hu' hid
    have hp'f := List.mem_filter.mp hp'
    have hp'ne : p' ≠ (i, x) := bne_iff_ne.mp hp'f.2
    rcases applyEvent_mem_cases hu' with
      ⟨u, hu, huid, ⟨b, sz, ho, rfl⟩ | ⟨m, ho, rfl⟩⟩ | ⟨hu, hne⟩
    · exfalso
      apply hp'ne
      refine eq_of_snd_eq hA.flightIdsNodup hp'f.1 hp ?_
      show p'.2 = x
      rw [← hid]; exact huid
    · exfalso
      apply hp'ne
      refine eq_of_snd_eq hA.flightIdsNodup hp'f.1 hp ?_
      show p'.2 = x
      rw [← hid]; exact huid
    · exact hA.flightStatus p' hp'f.1 u' hu hid
  case convFlight =>
    intro u' hu' hst
    rcases applyEvent_mem_cases hu' with
      ⟨u, hu, huid, ⟨b, sz, ho, rfl⟩ | ⟨m, ho, rfl⟩⟩ | ⟨hu, hne⟩
    · exact Status.noConfusion hst
    · exact Status.noConfusion hst
    · have hmem := hA.convFlight u' hu hst
      obtain ⟨q0, hq0, hq0y⟩ := List.mem_map.mp hmem
      have hq0ne : q0 ≠ (i, x) := by
        intro heq
        apply hne
        rw [← hq0y, heq]
      refine List.mem_map.mpr ⟨q0, ?_, hq0y⟩
      exact List.mem_filter.mpr ⟨hq0, bne_iff_ne.mpr hq0ne⟩
  case doneIff =>
    intro u' hu'
    rcases applyEvent_mem_cases hu' with
      ⟨u, hu, huid, ⟨b, sz, ho, rfl⟩ | ⟨m, ho, rfl⟩⟩ | ⟨hu, hne⟩
    · simp
    · simp
    · exact hA.doneIff u' hu
  case slotLt =>
    intro p hp'
    exact hA.slotLt p (List.mem_of_mem_filter hp')
  case enqInv =>
    intro y hy
    rcases hA.enqInv y hy with hq | hf | ht
    · exact Or.inl hq
    · obtain ⟨q0, hq0, hq0y⟩ := List.mem_map.mp hf
      by_cases hcase : q0 = (i, x)
      · have : y = x := by rw [← hq0y, hcase]
        rw [this]
        exact Or.inr (Or.inr (List.mem_cons_self x _))
      · refine Or.inr (Or.inl (List.mem_map.mpr ⟨q0, ?_, hq0y⟩))
        exact List.mem_filter.mpr ⟨hq0, bne_iff_ne.mpr hcase⟩
    · exact Or.inr (Or.inr (List.mem_cons_of_mem x ht))

theorem sysInv_event (i x : Nat) (o : Outcome) (s : AppState) (h : SysInv s)
    (hp : (i, x) ∈ s.inFlight) : SysInv (handleWorkerMessage i x o s) := by
  obtain ⟨hA, hB⟩ := h
  have hA1 := invA_consume i x o s hA hp
  have hi : i < s.numWorkers := hA.slotLt (i, x) hp
  unfold handleWorkerMessage
  by_cases hq : s.conversionQueue.isEmpty = true
  case pos =>
    rw [if_pos hq]
    have hqnil : s.conversionQueue = [] := List.isEmpty_iff.mp hq
    by_cases hb : (s.busyWorkers.filter (fun j => j != i)).isEmpty = true
    case pos =>
      rw [if_pos hb]
      refine ⟨?_, ?_, ?_⟩
      · exact
          { nodupIds := hA1.nodupIds, idLt := hA1.idLt, cacheLt := hA1.cacheLt,
            queueInList := hA1.queueInList, unitCached := hA1.unitCached,
            queueNodup := hA1.queueNodup, flightIdsNodup := hA1.flightIdsNodup,
            queueFlightDisj := hA1.queueFlightDisj, flightLt := hA1.flightLt,
            queueStatus := hA1.queueStatus, flightStatus := hA1.flightStatus,
            convFlight := hA1.convFlight, doneIff := hA1.doneIff,
            slotLt := hA1.slotLt, oneW := hA1.oneW, enqInv := hA1.enqInv }
      · intro _
        exact ⟨hqnil, List.isEmpty_iff.mp hb⟩
      · intro ht
        exact absurd ht (by simp)
    case neg =>
      rw [if_neg hb]
      refine ⟨hA1, ?_, ?_⟩
      · intro hf
        exfalso
        apply hb
        rw [List.isEmpty_iff]
        have := (hB.1 hf).2
        show s.busyWorkers.filter (fun j => j != i) = []
        rw [this]
        rfl
      · intro _
        intro hcon
        apply hb
        rw [List.isEmpty_iff]
        exact hcon
  case neg =>
    rw [if_neg hq]
    have hqne : s.conversionQueue ≠ [] := by
      intro hcon
      apply hq
      rw [List.isEmpty_iff]
      exact hcon
    refine ⟨invA_dispatchJob i _ hi hA1, ?_, ?_⟩
    · intro hf
      rw [dispatchJob_isConverting] at hf
      exfalso
      exact hqne (hB.1 hf).1
    · intro _
      obtain ⟨y, rest, hyr⟩ : ∃ y rest, s.conversionQueue = y :: rest := by
        cases hcq : s.conversionQueue with
        | nil => exact absurd hcq hqne
        | cons a b => exact ⟨a, b, rfl⟩
      have hymem : y ∈ s.conversionQueue := by
        rw [hyr]; exact List.mem_cons_self y rest
      have hcy : (cacheGet y s.fileCache).isSome = true :=
        hA.unitCached y (hA.queueInList y hymem)
      intro hcon
      have hbusy : i ∈ (dispatchJob i
          { s with imageList := applyEvent x o s.imageList,
                   busyWorkers := s.busyWorkers.filter (fun j => j != i),
                   inFlight := s.inFlight.filter (fun p => p != (i, x)),
                   terminalEver := x :: s.terminalEver }).busyWorkers := by
        unfold dispatchJob
        show i ∈ (dispatchGo i s.conversionQueue _).busyWorkers
        rw [hyr]
        exact dispatchGo_busy_head_cached hcy
      rw [hcon] at hbusy
      cases hbusy

theorem reachG_sysInv {rg : AppState → Prop} {s : AppState} (h : ReachG rg s) :
    SysInv s := by
  induction h with
  | init P hP => exact sysInv_init P hP
  | step _ hst ih =>
    cases hst with
    | upload files => exact sysInv_upload files _ ih
    | convert h1 h2 => exact sysInv_convert _ ih h1 h2
    | retry x hg => exact sysInv_retry x _ ih hg
    | remove x => exact sysInv_remove x _ ih
    | reset h1 _ => exact sysInv_reset _ ih
    | event i x o hp => exact sysInv_event i x o _ ih hp
    | setQual q _ => exact sysInv_setQual q _ ih

theorem reach_sysInv {s : AppState} (h : Reach s) : SysInv s := reachG_sysInv h

/-! ### The quiescent-reset invariant: busy flags match the in-flight jobs
and every slot carries at most one in-flight job -/

theorem eq_of_fst_eq {l : List (Nat × Nat)} (h : (l.map Prod.fst).Nodup)
    {p q : Nat × Nat} (hp : p ∈ l) (hq : q ∈ l) (he : p.1 = q.1) : p = q := by
  induction l with
  | nil => cases hp
  | cons w t ih =>
    simp only [List.map_cons, List.nodup_cons] at h
    rcases List.mem_cons.mp hp with rfl | hp' <;>
      rcases List.mem_cons.mp hq with rfl | hq'
    · rfl
    · exact absurd (he ▸ List.mem_map_of_mem Prod.fst hq') h.1
    · exact absurd (he ▸ List.mem_map_of_mem Prod.fst hp') h.1
    · exact ih h.2 hp' hq'

theorem qInv_of_eq {s t : AppState} (h : QInv s)
    (h1 : t.busyWorkers = s.busyWorkers) (h2 : t.inFlight = s.inFlight) :
    QInv t := by
  unfold QInv flightSlots at h ⊢
  rw [h1, h2]
  exact h

theorem qInv_dispatchGo (i : Nat) (q : List Nat) (s : AppState)
    (hnod : (flightSlots s).Nodup)
    (hbf : ∀ j, j ∈ s.busyWorkers ↔ j ∈ flightSlots s)
    (hnf : i ∉ flightSlots s) : QInv (dispatchGo i q s) := by
  induction q generalizing s with
  | nil => exact ⟨hnod, hbf⟩
  | cons x rest ih =>
    cases hc : cacheGet x s.fileCache with
    | some f =>
      simp only [dispatchGo, hc]
      constructor
      · exact List.nodup_cons.mpr ⟨hnf, hnod⟩
      · intro j
        constructor
        · intro hj
          rcases mem_setInsert.mp hj with rfl | hj'
          · exact List.mem_cons_self j _
          · exact List.mem_cons_of_mem _ ((hbf j).mp hj')
        · intro hj
          rcases List.mem_cons.mp hj with rfl | hj'
          · exact self_mem_setInsert j _
          · exact mem_setInsert.mpr (Or.inr ((hbf j).mpr hj'))
    | none =>
      simp only [dispatchGo, hc]
      exact ih _ hnod hbf hnf

theorem qInv_foldFill (l : List Nat) (s : AppState) (h : QInv s) :
    QInv (l.foldl
      (fun st i => if i ∈ st.busyWorkers then st else dispatchJob i st) s) := by
  induction l generalizing s with
  | nil => exact h
  | cons k t ih =>
    simp only [List.foldl_cons]
    by_cases hb : k ∈ s.busyWorkers
    · rw [if_pos hb]
      exact ih s h
    · rw [if_neg hb]
      have hnf : k ∉ flightSlots s := fun hcon => hb ((h.2 k).mpr hcon)
      exact ih _ (qInv_dispatchGo k s.conversionQueue s h.1 h.2 hnf)

theorem qInv_consume (i x : Nat) (o : Outcome) (s : AppState) (h : QInv s)
    (hp : (i, x) ∈ s.inFlight) :
    QInv { s with imageList := applyEvent x o s.imageList,
                  busyWorkers := s.busyWorkers.filter (fun j => j != i),
                  inFlight := s.inFlight.filter (fun p => p != (i, x)),
                  terminalEver := x :: s.terminalEver } := by
  obtain ⟨hnod, hbf⟩ := h
  constructor
  · exact hnod.sublist ((List.filter_sublist _).map Prod.fst)
  · intro j
    constructor
    · intro hj
      have hj' := List.mem_filter.mp hj
      have hjne : j ≠ i := bne_iff_ne.mp hj'.2
      obtain ⟨q0, hq0, hq0j⟩ := List.mem_map.mp ((hbf j).mp hj'.1)
      have hq0ne : q0 ≠ (i, x) := by
        intro heq
        apply hjne
        rw [← hq0j, heq]
      exact List.mem_map.mpr
        ⟨q0, List.mem_filter.mpr ⟨hq0, bne_iff_ne.mpr hq0ne⟩, hq0j⟩
    · intro hj
      obtain ⟨q0, hq0, hq0j⟩ := List.mem_map.mp hj
      have hq0f := List.mem_filter.mp hq0
      have hq0ne : q0 ≠ (i, x) := bne_iff_ne.mp hq0f.2
      have hjne : j ≠ i := by
        intro heq
        apply hq0ne
        refine eq_of_fst_eq hnod hq0f.1 hp ?_
        rw [hq0j, heq]
      refine List.mem_filter.mpr ⟨?_, bne_iff_ne.mpr hjne⟩
      exact (hbf j).mpr (List.mem_map.mpr ⟨q0, hq0f.1, hq0j⟩)

theorem qInv_i_not_in_flight_after_consume (i x : Nat) (s : AppState)
    (hnod : (flightSlots s).Nodup) (hp : (i, x) ∈ s.inFlight) :
    i ∉ (s.inFlight.filter (fun p => p != (i, x))).map Prod.fst := by
  intro hcon
  obtain ⟨q0, hq0, hq0i⟩ := List.mem_map.mp hcon
  have hq0f := List.mem_filter.mp hq0
  have hq0ne : q0 ≠ (i, x) := bne_iff_ne.mp hq0f.2
  exact hq0ne (eq_of_fst_eq hnod hq0f.1 hp hq0i)

theorem handleImageUpload_busy (files : List InputFile) (s : AppState) :
    (handleImageUpload files s).busyWorkers = s.busyWorkers := by
  simp only [handleImageUpload]
  by_cases he : (files.filter isValidFile).isEmpty = true
  · rw [if_pos he]
    by_cases hf : files.isEmpty = true
    · rw [if_pos hf]
    · rw [if_neg hf]
  · rw [if_neg he]

theorem handleImageUpload_inFlight (files : List InputFile) (s : AppState) :
    (handleImageUpload files s).inFlight = s.inFlight := by
  simp only [handleImageUpload]
  by_cases he : (files.filter isValidFile).isEmpty = true
  · rw [if_pos he]
    by_cases hf : files.isEmpty = true
    · rw [if_pos hf]
    · rw [if_neg hf]
  · rw [if_neg he]

theorem reachQ_qInv {s : AppState} (h : ReachQ s) : QInv s := by
  induction h with
  | init P hP =>
    constructor
    · exact List.nodup_nil
    · intro j
      constructor
      · intro hj; exact absurd hj (List.not_mem_nil j)
      · intro hj; exact absurd hj (List.not_mem_nil j)
  | step hr hst ih =>
    cases hst with
    | upload files =>
      exact qInv_of_eq ih (handleImageUpload_busy files _)
        (handleImageUpload_inFlight files _)
    | convert h1 h2 =>
      rename_i s'
      unfold convertAllImages
      by_cases he : (s'.imageList.filter processable).isEmpty = true
      · rw [if_pos he]
        exact qInv_of_eq ih rfl rfl
      · rw [if_neg he]
        refine qInv_foldFill _ _ ?_
        exact qInv_of_eq ih rfl rfl
    | retry x hg => exact qInv_of_eq ih rfl rfl
    | remove x => exact qInv_of_eq ih rfl rfl
    | reset h1 hrg =>
      rename_i s'
      constructor
      · show ((resetState s').inFlight.map Prod.fst).Nodup
        show (s'.inFlight.map Prod.fst).Nodup
        rw [hrg]
        exact List.nodup_nil
      · intro j
        constructor
        · intro hj; exact absurd hj (List.not_mem_nil j)
        · intro hj
          exfalso
          have : (resetState s').inFlight = s'.inFlight := rfl
          unfold flightSlots at hj
          rw [this, hrg] at hj
          exact absurd hj (List.not_mem_nil j)
    | event i x o hp =>
      rename_i s'
      have hq1 := qInv_consume i x o s' ih hp
      unfold handleWorkerMessage
      by_cases hq : s'.conversionQueue.isEmpty = true
      · rw [if_pos hq]
        by_cases hb : (s'.busyWorkers.filter (fun j => j != i)).isEmpty = true
        · rw [if_pos hb]
          exact qInv_of_eq hq1 rfl rfl
        · rw [if_neg hb]
          exact hq1
      · rw [if_neg hq]
        unfold dispatchJob
        refine qInv_dispatchGo i _ _ hq1.1 hq1.2 ?_
        exact qInv_i_not_in_flight_after_consume i x s' ih.1 hp
    | setQual q hq => exact qInv_of_eq ih rfl rfl

/-! ### Further characterization lemmas used by the claims -/

theorem foldFill_ids (l : List Nat) (s : AppState) :
    idsOf (l.foldl
      (fun st i => if i ∈ st.busyWorkers then st else dispatchJob i st)
      s).imageList = idsOf s.imageList := by
  induction l generalizing s with
  | nil => rfl
  | cons k t ih =>
    simp only [List.foldl_cons]
    by_cases hb : k ∈ s.busyWorkers
    · rw [if_pos hb]; exact ih s
    · rw [if_neg hb]
      rw [ih _]
      exact dispatchGo_ids k s.conversionQueue s

theorem fillIdleSlots_ids (s : AppState) :
    idsOf (fillIdleSlots s).imageList = idsOf s.imageList :=
  foldFill_ids (List.range s.numWorkers) s

theorem fillIdleSlots_queue_suffix (s : AppState) :
    (fillIdleSlots s).conversionQueue <:+ s.conversionQueue :=
  foldFill_queue_suffix (List.range s.numWorkers) s

theorem convertAllImages_ids (s : AppState) :
    idsOf (convertAllImages s).imageList = idsOf s.imageList := by
  unfold convertAllImages
  by_cases he : (s.imageList.filter processable).isEmpty = true
  · rw [if_pos he]
  · rw [if_neg he]
    exact fillIdleSlots_ids _

theorem handleWorkerMessage_ids (i x : Nat) (o : Outcome) (s : AppState) :
    idsOf (handleWorkerMessage i x o s).imageList = idsOf s.imageList := by
  unfold handleWorkerMessage
  by_cases hq : s.conversionQueue.isEmpty = true
  · rw [if_pos hq]
    by_cases hb : (s.busyWorkers.filter (fun j => j != i)).isEmpty = true
    · rw [if_pos hb]
      exact idsOf_applyEvent x o s.imageList
    · rw [if_neg hb]
      exact idsOf_applyEvent x o s.imageList
  · rw [if_neg hq]
    unfold dispatchJob
    rw [dispatchGo_ids]
    exact idsOf_applyEvent x o s.imageList

theorem findUnit_retryMap_eq (x : Nat) (l : List WorkUnit) :
    findUnit x (l.map (fun u =>
      if u.id = x then { u with status := Status.pending, errorMessage := none }
      else u)) =
    (findUnit x l).map
      (fun u => { u with status := Status.pending, errorMessage := none }) := by
  induction l with
  | nil => rfl
  | cons u t ih =>
    by_cases hid : u.id = x
    · simp [findUnit, hid]
    · simp [findUnit, hid, ih]

theorem findUnit_retryMap_ne (x y : Nat) (l : List WorkUnit) (hyx : y ≠ x) :
    findUnit y (l.map (fun u =>
      if u.id = x then { u with status := Status.pending, errorMessage := none }
      else u)) = findUnit y l := by
  induction l with
  | nil => rfl
  | cons u t ih =>
    have hxy : ¬ (x = y) := fun heq => hyx heq.symm
    by_cases hid : u.id = x
    · simp [findUnit, hid, hxy, ih]
    · by_cases huy : u.id = y
      · simp [findUnit, hid, huy, hyx]
      · simp [findUnit, hid, huy, ih]

theorem dispatchGo_unit_not_queued (i : Nat) (q : List Nat) (s : AppState)
    {u : WorkUnit} (hu : u ∈ (dispatchGo i q s).imageList) (hid : u.id ∉ q) :
    u ∈ s.imageList := by
  induction q generalizing s with
  | nil => exact hu
  | cons x rest ih =>
    have hidx : u.id ≠ x := by
      intro heq
      exact hid (heq ▸ List.mem_cons_self x rest)
    have hidr : u.id ∉ rest := fun hr => hid (List.mem_cons_of_mem x hr)
    cases hc : cacheGet x s.fileCache with
    | some f =>
      rw [show dispatchGo i (x :: rest) s =
        { s with conversionQueue := rest,
                 busyWorkers := setInsert i s.busyWorkers,
                 imageList := markConverting x s.imageList,
                 inFlight := (i, x) :: s.inFlight } from by
          simp only [dispatchGo, hc]] at hu
      rcases markConverting_mem_cases hu with ⟨w, hw, hwid, rfl⟩ | ⟨hw, _⟩
      · exact absurd hwid hidx
      · exact hw
    | none =>
      rw [show dispatchGo i (x :: rest) s =
        dispatchGo i rest
          { s with conversionQueue := rest,
                   imageList := markFileNotFound x s.imageList,
                   terminalEver := x :: s.terminalEver } from by
          simp only [dispatchGo, hc]] at hu
      have := ih _ hu hidr
      rcases markFileNotFound_mem_cases this with ⟨w, hw, hwid, rfl⟩ | ⟨hw, _⟩
      · exact absurd hwid hidx
      · exact hw

theorem reachQ_trA1 : ReachQ trA1 :=
  ReachG.step (ReachG.init 1 (by decide)) (Step.upload _ [pngFile "a"])

theorem reachQ_trA2 : ReachQ trA2 :=
  ReachG.step reachQ_trA1 (Step.convert _ (by decide) (by decide))

theorem reach_trA3 : Reach trA3 :=
  ReachG.step (reachQ_reach reachQ_trA2) (Step.reset _ (by decide) trivial)

theorem reach_trA4 : Reach trA4 :=
  ReachG.step reach_trA3 (Step.upload _ [pngFile "b", pngFile "c"])

theorem reach_trA5 : Reach trA5 :=
  ReachG.step reach_trA4 (Step.convert _ (by decide) (by decide))

theorem reach_trA6 : Reach trA6 :=
  ReachG.step reach_trA5 (Step.event _ 0 0 (Outcome.done 7 50) (by decide))

theorem reachQ_trB1 : ReachQ trB1 :=
  ReachG.step (ReachG.init 1 (by decide)) (Step.upload _ [pngFile "a", pngFile "b"])

theorem reachQ_trB2 : ReachQ trB2 :=
  ReachG.step reachQ_trB1 (Step.convert _ (by decide) (by decide))

theorem reachQ_trB3 : ReachQ trB3 :=
  ReachG.step reachQ_trB2 (Step.event _ 0 0 (Outcome.error "boom") (by decide))

theorem reachQ_trB4 : ReachQ trB4 :=
  ReachG.step reachQ_trB3 (Step.retry _ 0 (by decide))

theorem reachQ_trB5 : ReachQ trB5 :=
  ReachG.step reachQ_trB4 (Step.event _ 0 1 (Outcome.done 9 40) (by decide))

theorem reachQ_trD3 : ReachQ trD3 :=
  ReachG.step reachQ_trA2 (Step.event _ 0 0 (Outcome.done 7 44) (by decide))

/-! ### Claims -/

/-- C8: a pool worker first runs the fast encode path; when it fails the
fallback path runs automatically; the reply is `done` whenever the
primary or the fallback succeeds (no error surfaced for a
fallback-recovered job), and it is `error` carrying exactly the fallback
attempt's message when both paths fail. -/
theorem c8_fallback_policy :
    (∀ (b sz : Nat) (fb : EncodeResult),
        workerOnMessage (EncodeResult.ok b sz) fb = WorkerReply.done b sz) ∧
    (∀ (e : String) (b sz : Nat),
        workerOnMessage (EncodeResult.fail e) (EncodeResult.ok b sz)
          = WorkerReply.done b sz) ∧
    (∀ (e m : String),
        workerOnMessage (EncodeResult.fail e) (EncodeResult.fail m)
          = WorkerReply.error m) :=
  ⟨fun _ _ _ => rfl, fun _ _ _ => rfl, fun _ _ => rfl⟩

/-- C3, counterexample: `handleRetry` is NOT a no-op on a Done unit.  In
the reachable state `trD3` unit 0 is Done; calling retry on it forces it
back to Pending and changes the state, contradicting the claim that
retry on a Done unit leaves the unit's state unchanged
(handleRetry, page.js:262-264, has no status guard). -/
theorem c3_retry_not_noop_on_done :
    Reach trD3 ∧
    (findUnit 0 trD3.imageList).map WorkUnit.status = some Status.done ∧
    (findUnit 0 (handleRetry 0 trD3).imageList).map WorkUnit.status
      = some Status.pending ∧
    handleRetry 0 trD3 ≠ trD3 :=
  ⟨reachQ_reach reachQ_trD3, by decide, by decide, by decide⟩

/-- C3, amended: `handleRetry x` unconditionally sets the unit with id
`x` to Pending and clears its error message (so on an Error unit it is
the Error→Pending transition; on a Done unit it is NOT a no-op), leaves
every other unit untouched, and never touches the pending queue, the
busy set or the in-flight jobs — in particular it never re-enqueues the
unit.  The UI offers retry only on Error rows (page.js:136-139). -/
theorem c3_retry_behavior (s : AppState) (x : Nat) (u : WorkUnit)
    (hu : findUnit x s.imageList = some u) :
    (handleRetry x s).conversionQueue = s.conversionQueue ∧
    (handleRetry x s).inFlight = s.inFlight ∧
    (handleRetry x s).busyWorkers = s.busyWorkers ∧
    findUnit x (handleRetry x s).imageList =
      some { u with status := Status.pending, errorMessage := none } ∧
    (∀ y, y ≠ x → findUnit y (handleRetry x s).imageList
      = findUnit y s.imageList) := by
  refine ⟨rfl, rfl, rfl, ?_, ?_⟩
  · show findUnit x (s.imageList.map _) = _
    rw [findUnit_retryMap_eq, hu]
    rfl
  · intro y hy
    show findUnit y (s.imageList.map _) = _
    exact findUnit_retryMap_ne x y s.imageList hy

/-- C3 witness: the amended retry behavior evaluated in the reachable
state `trB3`, whose unit 0 is Error("boom"). -/
theorem c3_retry_behavior_witness :
    findUnit 0 trB3.imageList = some u0err ∧
    (handleRetry 0 trB3).conversionQueue = trB3.conversionQueue ∧
    findUnit 0 (handleRetry 0 trB3).imageList =
      some { u0err with status := Status.pending, errorMessage := none } :=
  ⟨by decide, (c3_retry_behavior trB3 0 u0err (by decide)).1,
    (c3_retry_behavior trB3 0 u0err (by decide)).2.2.2.1⟩

/-- C7: when the id at the front of the queue has no cached payload,
`dispatchJob` marks that unit Error("File not found") without posting a
job (no in-flight entry for it is created, the slot is not occupied for
it) and immediately continues dispatching the same slot on the rest of
the queue, so a missing payload never stalls the pipeline. -/
theorem c7_missing_payload (i x : Nat) (rest : List Nat) (s : AppState)
    (hq : s.conversionQueue = x :: rest)
    (hc : cacheGet x s.fileCache = none)
    (hx : x ∉ rest) :
    dispatchJob i s =
      dispatchJob i { s with conversionQueue := rest,
                             imageList := markFileNotFound x s.imageList,
                             terminalEver := x :: s.terminalEver } ∧
    (∀ u ∈ (dispatchJob i s).imageList, u.id = x →
       u.status = Status.error ∧ u.errorMessage = some "File not found") ∧
    (∀ p ∈ (dispatchJob i s).inFlight, p.2 = x → p ∈ s.inFlight) := by
  have hmain : dispatchJob i s =
      dispatchGo i rest { s with conversionQueue := rest,
                                 imageList := markFileNotFound x s.imageList,
                                 terminalEver := x :: s.terminalEver } := by
    unfold dispatchJob
    rw [hq]
    simp only [dispatchGo, hc]
  refine ⟨hmain, ?_, ?_⟩
  · intro u hu hid
    rw [hmain] at hu
    have hu2 := dispatchGo_unit_not_queued i rest _ hu (hid ▸ hx)
    rcases markFileNotFound_mem_cases hu2 with ⟨w, hw, hwid, rfl⟩ | ⟨_, hne⟩
    · exact ⟨rfl, rfl⟩
    · exact absurd hid hne
  · intro p hp hpx
    rw [hmain] at hp
    rcases dispatchGo_flight_sub i rest _ hp with h1 | ⟨_, h2⟩
    · exact h1
    · exact absurd (hpx ▸ h2) hx

/-- C7 witness: `s7` has the queued id 0 with an evicted payload; after
`dispatchJob` the unit is Error("File not found"). -/
theorem c7_missing_payload_witness :
    cacheGet 0 s7.fileCache = none ∧
    (∀ u ∈ (dispatchJob 0 s7).imageList, u.id = 0 →
       u.status = Status.error ∧ u.errorMessage = some "File not found") :=
  ⟨by decide, (c7_missing_payload 0 0 [] s7 (by decide) (by decide)
    (by decide)).2.1⟩

/-- C9, counterexample: a batch holding one valid png and one invalid
gif registers only the png and reports NO message at all
(`handleImageUpload` sets the batch-level message only when no file in
the batch is valid, page.js:194-198), contradicting the claim that the
presence of any invalid file is reported once as a batch-level message. -/
theorem c9_mixed_batch_not_reported :
    isValidFile (gifFile "bad") = false ∧
    (handleImageUpload [pngFile "a", gifFile "bad"] (initState 1)).errorMsg
      = "" ∧
    (handleImageUpload [pngFile "a", gifFile "bad"]
      (initState 1)).imageList.map WorkUnit.originalName = ["a"] := by
  refine ⟨by decide, by decide, by decide⟩

/-- C9, amended: a WorkUnit is created exactly for the files whose mime
type is image/png or image/jpeg, in submission order; invalid files are
dropped before registration; the single batch-level message
"Please select valid PNG or JPG images." is reported only when the
(nonempty) batch contains no valid file at all — a mixed batch's invalid
files are dropped silently, and a batch with valid files clears the
message. -/
theorem c9_upload_filtering (files : List InputFile) (s : AppState) :
    (∀ f : InputFile, isValidFile f = true ↔
       (f.mimeType = "image/png" ∨ f.mimeType = "image/jpeg")) ∧
    ((handleImageUpload files s).imageList.map WorkUnit.originalName =
       if (files.filter isValidFile).isEmpty = true then
         s.imageList.map WorkUnit.originalName
       else s.imageList.map WorkUnit.originalName
         ++ (files.filter isValidFile).map InputFile.name) ∧
    ((handleImageUpload files s).errorMsg =
       if (files.filter isValidFile).isEmpty = true then
         (if files.isEmpty = true then s.errorMsg
          else "Please select valid PNG or JPG images.")
       else "") := by
  refine ⟨?_, ?_, ?_⟩
  · intro f
    simp [isValidFile]
  · unfold handleImageUpload
    by_cases he : (files.filter isValidFile).isEmpty = true
    · rw [if_pos he, if_pos he]
      by_cases hf : files.isEmpty = true
      · rw [if_pos hf]
      · rw [if_neg hf]
    · rw [if_neg he, if_neg he]
      show (s.imageList ++ (registerAux s.nextId (files.filter isValidFile)).1).map
          WorkUnit.originalName = _
      rw [List.map_append, regAux_names]
  · unfold handleImageUpload
    by_cases he : (files.filter isValidFile).isEmpty = true
    · rw [if_pos he, if_pos he]
      by_cases hf : files.isEmpty = true
      · rw [if_pos hf, if_pos hf]
      · rw [if_neg hf, if_neg hf]
    · rw [if_neg he, if_neg he]

/-- C10 (implicit): `convertAllImages` does not deduplicate against the
pending queue: from a state where a Pending unit's id is already queued,
a further submit-all appends the id again (it occurs at least twice in
the queue passed to the fill loop); concretely, on `s10` (one Pending
unit with id 0 already queued, two idle slots) a single further
`convertAllImages` dispatches id 0 to slot 0 AND slot 1. -/
theorem c10_duplicate_enqueue :
    (∀ (s : AppState) (u : WorkUnit), u ∈ s.imageList →
       u.status = Status.pending → u.id ∈ s.conversionQueue →
       2 ≤ List.count u.id
             (s.conversionQueue ++ idsOf (s.imageList.filter processable))) ∧
    ((convertAllImages s10).inFlight = [(1, 0), (0, 0)] ∧
     (convertAllImages s10).imageList.map WorkUnit.status
       = [Status.converting]) := by
  constructor
  · intro s u hu hst hq
    rw [List.count_append]
    have h1 : 0 < List.count u.id s.conversionQueue :=
      List.count_pos_iff.mpr hq
    have h2 : 0 < List.count u.id (idsOf (s.imageList.filter processable)) := by
      refine List.count_pos_iff.mpr ?_
      refine List.mem_map.mpr ⟨u, ?_, rfl⟩
      exact List.mem_filter.mpr ⟨hu, processable_iff.mpr (Or.inl hst)⟩
    omega
  · exact ⟨by decide, by decide⟩

/-- C10 witness: the duplicate-append fact evaluated on `s10`: id 0 is
Pending and already queued, and after the enqueue of a second submit-all
it occurs twice. -/
theorem c10_duplicate_enqueue_witness :
    u0p ∈ s10.imageList ∧
    2 ≤ List.count 0 (s10.conversionQueue ++ idsOf (s10.imageList.filter processable)) :=
  ⟨by decide, c10_duplicate_enqueue.1 s10 u0p (by decide) (by decide) (by decide)⟩

/-- C1, counterexample: the at-most-P-Converting bound fails in a
reachable state.  `trA6` is reached by: upload "a", convert (job for
unit 0 posted to slot 0), reset while that job is in flight (resetState
clears `busyWorkers` but does not terminate the workers,
page.js:276-287), upload "b","c", convert (slot 0, now flagged idle,
receives unit 1 while unit 0 is still in flight), then the late event
for unit 0 arrives and refills slot 0 with unit 2.  The pool has P = 1
worker, yet two WorkUnits are Converting, and slot 0 holds two in-flight
jobs. -/
theorem c1_concurrency_bound_violated :
    Reach trA6 ∧ trA6.numWorkers = 1 ∧
    (trA6.imageList.filter (fun u => u.status == Status.converting)).length = 2 ∧
    trA6.inFlight = [(0, 2), (0, 1)] :=
  ⟨reach_trA6, by decide, by decide, by decide⟩

/-- C1, amended: in every state reachable in runs where `resetState` is
only invoked while no job is in flight, the number of Converting
WorkUnits is at most the pool size, and the in-flight slot indices are
pairwise distinct (each busy slot holds at most one in-flight job). -/
theorem c1_concurrency_bound_quiescent (s : AppState) (h : ReachQ s) :
    (s.imageList.filter (fun u => u.status == Status.converting)).length
      ≤ s.numWorkers ∧
    (flightSlots s).Nodup := by
  obtain ⟨hA, hB⟩ := reach_sysInv (reachQ_reach h)
  obtain ⟨hnod, hbf⟩ := reachQ_qInv h
  refine ⟨?_, hnod⟩
  have hnd : (idsOf (s.imageList.filter
      (fun u => u.status == Status.converting))).Nodup :=
    hA.nodupIds.sublist ((List.filter_sublist _).map WorkUnit.id)
  have hsub : ∀ y ∈ idsOf (s.imageList.filter
      (fun u => u.status == Status.converting)), y ∈ flightIds s := by
    intro y hy
    obtain ⟨u, hu, huid⟩ := List.mem_map.mp hy
    have hst : u.status = Status.converting := by
      have := List.of_mem_filter hu
      simpa using this
    exact huid ▸ hA.convFlight u (List.mem_of_mem_filter hu) hst
  calc (s.imageList.filter (fun u => u.status == Status.converting)).length
      = (idsOf (s.imageList.filter
          (fun u => u.status == Status.converting))).length := by
        simp [idsOf]
    _ ≤ (flightIds s).length := length_le_length_of_nodup_subset hnd hsub
    _ = (flightSlots s).length := by simp [flightIds, flightSlots]
    _ ≤ s.numWorkers := by
        refine length_le_of_nodup_lt hnod ?_
        intro j hj
        obtain ⟨p, hp, hpj⟩ := List.mem_map.mp hj
        exact hpj ▸ hA.slotLt p hp

/-- C1 witness: the quiescent bound evaluated in the reachable state
`trB2` (one unit Converting, pool of size 1). -/
theorem c1_concurrency_bound_quiescent_witness :
    (trB2.imageList.filter (fun u => u.status == Status.converting)).length
      ≤ trB2.numWorkers ∧
    (flightSlots trB2).Nodup :=
  c1_concurrency_bound_quiescent trB2 reachQ_trB2

/-- C2, counterexample: in the reachable (reset-free) state `trB5` the
pending queue is empty, no slot is busy and the batch has been reported
complete (`isConverting = false`), yet unit 0 — enqueued by the
submit-all and never removed — has status Pending, not Done or Error:
the user retried it mid-batch after its failure (Error→Pending), so the
claim "every ever-enqueued, not-removed unit has status Done or Error at
completion" is false as stated. -/
theorem c2_completion_violated :
    ReachQ trB5 ∧ trB5.conversionQueue = [] ∧ trB5.busyWorkers = [] ∧
    trB5.isConverting = false ∧ 0 ∈ trB5.enqueuedEver ∧
    (findUnit 0 trB5.imageList).map WorkUnit.status = some Status.pending :=
  ⟨reachQ_trB5, by decide, by decide, by decide, by decide, by decide⟩

/-- C2, amended: in runs where `resetState` is only invoked while no job
is in flight: whenever the pending queue is empty and no slot is busy,
every id ever enqueued (and not removed) has at some point received a
terminal Done or Error status (`terminalEver` is the history variable
recording exactly the ids to which the dispatcher assigned Done or
Error; a unit may have been moved back to Pending afterwards only by an
explicit user retry); and the batch-complete flag is cleared exactly
then: `isConverting = false` iff the queue is empty and no slot is
busy. -/
theorem c2_completion_quiescent (s : AppState) (h : ReachQ s) :
    (s.conversionQueue = [] → s.busyWorkers = [] →
       ∀ y ∈ s.enqueuedEver, y ∈ s.terminalEver) ∧
    (s.isConverting = false ↔ (s.conversionQueue = [] ∧ s.busyWorkers = [])) := by
  obtain ⟨hA, hB⟩ := reach_sysInv (reachQ_reach h)
  obtain ⟨hnod, hbf⟩ := reachQ_qInv h
  constructor
  · intro hq hbusy y hy
    rcases hA.enqInv y hy with h1 | h1 | h1
    · rw [hq] at h1
      exact absurd h1 (List.not_mem_nil y)
    · exfalso
      obtain ⟨p, hp, hpy⟩ := List.mem_map.mp h1
      have hmem : p.1 ∈ s.busyWorkers :=
        (hbf p.1).mpr (List.mem_map_of_mem Prod.fst hp)
      rw [hbusy] at hmem
      exact absurd hmem (List.not_mem_nil _)
    · exact h1
  · constructor
    · intro hf
      exact hB.1 hf
    · rintro ⟨hq, hbusy⟩
      cases hcv : s.isConverting with
      | false => rfl
      | true => exact absurd hbusy (hB.2 hcv)


/-- C2 witness: the amended completion property evaluated at `trB5`:
queue empty, no busy slot, `isConverting` cleared, and both enqueued ids
(0 and 1) did reach a terminal status during the run. -/
theorem c2_completion_quiescent_witness :
    trB5.conversionQueue = [] ∧ trB5.enqueuedEver = [0, 1] ∧
    (∀ y ∈ trB5.enqueuedEver, y ∈ trB5.terminalEver) ∧
    (trB5.isConverting = false ↔
      (trB5.conversionQueue = [] ∧ trB5.busyWorkers = [])) :=
  ⟨by decide, by decide,
    (c2_completion_quiescent trB5 reachQ_trB5).1 (by decide) (by decide),
    (c2_completion_quiescent trB5 reachQ_trB5).2⟩

/-- C4: in every reachable state (resets anywhere included) the registry
ids are pairwise distinct and a WorkUnit's converted payload is present
iff its status is Done; and every operation preserves unit identity:
after any step, every unit in the registry either keeps the id of a unit
that existed before the step, or is a freshly created unit whose id the
id generator had not yet issued (ids are never mutated in place). -/
theorem c4_registry_invariant (s : AppState) (h : Reach s) :
    ((idsOf s.imageList).Nodup ∧
     ∀ u ∈ s.imageList, (u.status = Status.done ↔ u.convertedUrl ≠ none)) ∧
    (∀ t : AppState, Step (fun _ => True) s t → ∀ u' ∈ t.imageList,
       (∃ u ∈ s.imageList, u.id = u'.id) ∨ s.nextId ≤ u'.id) := by
  obtain ⟨hA, hB⟩ := reach_sysInv h
  refine ⟨⟨hA.nodupIds, hA.doneIff⟩, ?_⟩
  intro t hst u' hu'
  have idsArg : ∀ (l : List WorkUnit), idsOf l = idsOf s.imageList →
      u' ∈ l → (∃ u ∈ s.imageList, u.id = u'.id) ∨ s.nextId ≤ u'.id := by
    intro l hl hu
    left
    have : u'.id ∈ idsOf s.imageList := by
      rw [← hl]
      exact List.mem_map_of_mem WorkUnit.id hu
    obtain ⟨u, hum, huid⟩ := List.mem_map.mp this
    exact ⟨u, hum, huid⟩
  cases hst with
  | upload files =>
    revert hu'
    unfold handleImageUpload
    by_cases he : (files.filter isValidFile).isEmpty = true
    · rw [if_pos he]
      by_cases hf : files.isEmpty = true
      · rw [if_pos hf]
        intro hu'
        exact idsArg s.imageList rfl hu'
      · rw [if_neg hf]
        intro hu'
        exact idsArg s.imageList rfl hu'
    · rw [if_neg he]
      intro hu'
      rcases List.mem_append.mp hu' with hl | hr
      · exact Or.inl ⟨u', hl, rfl⟩
      · exact Or.inr (regAux_fst_mem hr).2.2.1
  | convert h1 h2 => exact idsArg _ (convertAllImages_ids s) hu'
  | retry x hg =>
    refine idsArg _ ?_ hu'
    show idsOf (s.imageList.map _) = idsOf s.imageList
    exact idsOf_retryMap x s.imageList
  | remove x => exact Or.inl ⟨u', List.mem_of_mem_filter hu', rfl⟩
  | reset h1 _ => exact absurd hu' (List.not_mem_nil u')
  | event i x o hp => exact idsArg _ (handleWorkerMessage_ids i x o s) hu'
  | setQual q hq => exact idsArg s.imageList rfl hu'

/-- C4 witness: the registry invariant and the id-stability of an upload
step evaluated at the reachable state `trB1`. -/
theorem c4_registry_invariant_witness :
    ((idsOf trB1.imageList).Nodup ∧
     ∀ u ∈ trB1.imageList, (u.status = Status.done ↔ u.convertedUrl ≠ none)) ∧
    (∀ u' ∈ (handleImageUpload [pngFile "c"] trB1).imageList,
       (∃ u ∈ trB1.imageList, u.id = u'.id) ∨ trB1.nextId ≤ u'.id) :=
  ⟨(c4_registry_invariant trB1 (reachQ_reach reachQ_trB1)).1,
    (c4_registry_invariant trB1 (reachQ_reach reachQ_trB1)).2
      (handleImageUpload [pngFile "c"] trB1) (Step.upload trB1 [pngFile "c"])⟩

/-- C5, counterexample: per-slot sequentiality does not survive
`resetState`.  In the reachable state `trA5` (upload, convert, reset
while the job for unit 0 is still in flight, upload again, convert
again) slot 0 has received the submission for unit 1 while its previous
job for unit 0 is still in flight and unobserved: two in-flight jobs sit
on the same slot. -/
theorem c5_slot_sequential_violated :
    Reach trA5 ∧ (0, 0) ∈ trA5.inFlight ∧ (0, 1) ∈ trA5.inFlight ∧
    ¬ (flightSlots trA5).Nodup :=
  ⟨reach_trA5, by decide, by decide, by decide⟩

/-- C5, amended: in runs where `resetState` is only invoked while no job
is in flight, every slot holds at most one in-flight job at any instant
(the in-flight slot indices are pairwise distinct), and every in-flight
slot is flagged busy — hence a slot is never handed a second submission
before the event of its previous job has been observed (dispatch only
targets slots not flagged busy). -/
theorem c5_slot_sequential_quiescent (s : AppState) (h : ReachQ s) :
    (flightSlots s).Nodup ∧ ∀ p ∈ s.inFlight, p.1 ∈ s.busyWorkers := by
  obtain ⟨hnod, hbf⟩ := reachQ_qInv h
  exact ⟨hnod, fun p hp => (hbf p.1).mpr (List.mem_map_of_mem Prod.fst hp)⟩

/-- C5 witness: the amended slot-sequentiality evaluated at `trB2` (one
job in flight on slot 0, slot 0 flagged busy). -/
theorem c5_slot_sequential_quiescent_witness :
    (flightSlots trB2).Nodup ∧ ∀ p ∈ trB2.inFlight, p.1 ∈ trB2.busyWorkers :=
  c5_slot_sequential_quiescent trB2 reachQ_trB2

/-- C6: submit-all appends the ids of the processable units to the end
of the pending queue in registry (submission) order and the fill loop
consumes ids only from the front (the final queue is a suffix of the
appended queue); in any reachable state a dispatch on a nonempty queue
pops exactly the front id, marks that slot busy and that unit
Converting, and posts exactly that one job; and retry leaves the queue
untouched — a retried unit re-enters only when the next submit-all
appends it (with the rest of its batch) at the end of the queue, never
at its old position. -/
theorem c6_fifo_order (s : AppState) :
    ((convertAllImages s).conversionQueue <:+
        s.conversionQueue ++ idsOf (s.imageList.filter processable)) ∧
    (∀ i x rest, Reach s → s.conversionQueue = x :: rest →
       dispatchJob i s =
         { s with conversionQueue := rest,
                  busyWorkers := setInsert i s.busyWorkers,
                  imageList := markConverting x s.imageList,
                  inFlight := (i, x) :: s.inFlight }) ∧
    (∀ y, (handleRetry y s).conversionQueue = s.conversionQueue) := by
  refine ⟨?_, ?_, fun y => rfl⟩
  · unfold convertAllImages
    by_cases he : (s.imageList.filter processable).isEmpty = true
    · rw [if_pos he]
      have hfe : s.imageList.filter processable = [] := List.isEmpty_iff.mp he
      rw [hfe]
      show s.conversionQueue <:+ s.conversionQueue ++ idsOf []
      rw [show idsOf [] = [] from rfl, List.append_nil]
    · rw [if_neg he]
      exact fillIdleSlots_queue_suffix _
  · intro i x rest hr hq
    obtain ⟨hA, hB⟩ := reach_sysInv hr
    have hxq : x ∈ s.conversionQueue := by
      rw [hq]
      exact List.mem_cons_self x rest
    have hcy : (cacheGet x s.fileCache).isSome = true :=
      hA.unitCached x (hA.queueInList x hxq)
    obtain ⟨f, hf⟩ := Option.isSome_iff_exists.mp hcy
    unfold dispatchJob
    rw [hq]
    simp only [dispatchGo, hf]

/-- C6 witness: the FIFO properties evaluated at the reachable state
`trB2`, whose queue is `[1]`: the dispatch pops exactly id 1, marks
slot 0 busy and unit 1 Converting. -/
theorem c6_fifo_order_witness :
    trB2.conversionQueue = 1 :: [] ∧
    dispatchJob 0 trB2 =
      { trB2 with conversionQueue := [],
                  busyWorkers := setInsert 0 trB2.busyWorkers,
                  imageList := markConverting 1 trB2.imageList,
                  inFlight := (0, 1) :: trB2.inFlight } :=
  ⟨by decide, (c6_fifo_order trB2).2.1 0 1 []
    (reachQ_reach reachQ_trB2) (by decide)⟩
